import Mathlib

/-!
Buffer (`LinuxServer/code/buffer/buffer.cpp`)

A shallow embedding of the growable byte buffer and a verification of its
cursor arithmetic, its compaction/growth policy and its read/write side
operations.

Modelling conventions
* `std::vector<char> buffer_` is a `List Byte`; `buffer_.size()` is its length.
  The header `buffer.h` is not among the sources: the cursors `readPos_` and
  `writePos_` are taken to be `size_t` values, the type in which the accessors
  return them and their differences.
* `size_t` is the 64-bit unsigned type of LP64 Linux: every `size_t`
  addition and subtraction of the source is taken modulo `SIZE_MOD = 2^64`
  (`szAdd`, `szSub`).
* `assert(c)` is active (no `NDEBUG`): a failing assertion aborts, which is
  the result `none`.
* `resize` gives the result of a call of `std::vector<char>::resize` that returns:
  memory allocation is assumed to succeed, and a requested length above
  `MAX_SIZE = max_size()`, for which the real call throws `std::length_error`, lies
  outside it. A statement that lets a bare length reach `resize` bounds the
  requested length by `MAX_SIZE` (`Buffer.Accepted`).
* The store is the list of the elements of the vector, `size()` of them. On a state
  with `writePos_` beyond `size()` the code reads raw memory behind the last element,
  which a list does not have: the readable region is described for states that
  satisfy the cursor invariant.
* Pointers into the store are offsets from `BeginPtr_()`; a caller's array
  (`const char* str`) is the list of its bytes.
* A system call is represented by its outcome.
-/

namespace LinuxServer

/-- One `char` of the backing store. -/
abbrev Byte := Fin 256

/-- Number of values of `size_t` (64-bit): arithmetic on cursors wraps modulo this. -/
def SIZE_MOD : Nat := 18446744073709551616

/-- Addition of two `size_t` values. -/
def szAdd (a b : Nat) : Nat := (a + b) % SIZE_MOD

/-- Subtraction of two `size_t` values (wraps below zero). -/
def szSub (a b : Nat) : Nat := (a % SIZE_MOD + (SIZE_MOD - b % SIZE_MOD)) % SIZE_MOD

/-- Conversion of a non-negative `ssize_t` to `size_t` (`static_cast<size_t>(len)`);
a negative value wraps. -/
def toSize (n : Int) : Nat := (n % (SIZE_MOD : Int)).toNat

/-- The three data members of `class Buffer`. -/
structure Buffer where
  buffer_ : List Byte
  readPos_ : Nat
  writePos_ : Nat
deriving DecidableEq

/-- `Buffer::Buffer(int initBuffSize)`: a store of `initBuffSize` zero bytes, both
cursors at 0 (`initBuffSize` is the non-negative value of the `int`). Named `new`
because `Buffer.Buffer` would shadow the type inside its own namespace. -/
def Buffer.new (initBuffSize : Nat) : Buffer :=
  { buffer_ := List.replicate initBuffSize 0, readPos_ := 0, writePos_ := 0 }

/-- `Buffer::ReadableBytes`: `writePos_ - readPos_`. -/
def Buffer.ReadableBytes (b : Buffer) : Nat := szSub b.writePos_ b.readPos_

/-- `Buffer::WritableBytes`: `buffer_.size() - writePos_`. -/
def Buffer.WritableBytes (b : Buffer) : Nat := szSub b.buffer_.length b.writePos_

/-- `Buffer::PrependableBytes`: `readPos_`. -/
def Buffer.PrependableBytes (b : Buffer) : Nat := b.readPos_

/-- `Buffer::Peek`: the pointer `BeginPtr_() + readPos_`, as the bytes of the store
from that offset on. -/
def Buffer.Peek (b : Buffer) : List Byte := b.buffer_.drop b.readPos_

/-- The `n` bytes starting at `Peek()`. -/
def Buffer.peekN (b : Buffer) (n : Nat) : List Byte := b.Peek.take n

/-- The readable region `[readPos_, writePos_)`, read the way `RetrieveAllToStr`
reads it: `std::string(Peek(), ReadableBytes())`. It is what the code reads on a
state that satisfies the cursor invariant; on a state with `writePos_` beyond the
store length the code reads on behind the last element of the vector, where this
list stops. -/
def Buffer.readable (b : Buffer) : List Byte := b.peekN b.ReadableBytes

/-- `Buffer::Retrieve`: `assert(len <= ReadableBytes()); readPos_ += len;`. -/
def Buffer.Retrieve (b : Buffer) (len : Nat) : Option Buffer :=
  if len ≤ b.ReadableBytes then
    some { b with readPos_ := szAdd b.readPos_ len }
  else none

/-- `Buffer::RetrieveAll`: `bzero` of the whole store, both cursors to 0. -/
def Buffer.RetrieveAll (b : Buffer) : Buffer :=
  { buffer_ := List.replicate b.buffer_.length 0, readPos_ := 0, writePos_ := 0 }

/-- `Buffer::RetrieveAllToStr`: the string `str(Peek(), ReadableBytes())`, then
`RetrieveAll()`. -/
def Buffer.RetrieveAllToStr (b : Buffer) : List Byte × Buffer :=
  let str := b.peekN b.ReadableBytes
  (str, b.RetrieveAll)

/-- `Buffer::HasWritten`: `writePos_ += len;` (no assertion). -/
def Buffer.HasWritten (b : Buffer) (len : Nat) : Buffer :=
  { b with writePos_ := szAdd b.writePos_ len }

/-- `std::vector<char>::resize(n)` when it returns: truncate to `n` elements, or
append zero bytes up to `n` elements. For `n` above `max_size()` the real call throws
`std::length_error` instead. -/
def resize (v : List Byte) (n : Nat) : List Byte :=
  v.take n ++ List.replicate (n - v.length) 0

/-- `std::copy(first, last, d_first)` with all three pointers inside one array:
`n = last - first` assignments `v[dst + i] = v[src + i]`, for `i = 0, 1, ...` in this
order, each reading the array as the earlier assignments left it. -/
def copyWithin (v : List Byte) (src dst : Nat) : Nat → List Byte
  | 0 => v
  | n + 1 => copyWithin (v.set dst (v.getD src 0)) (src + 1) (dst + 1) n

/-- `std::copy(str, str + len, d_first)` from a caller's array into the store:
assignments `v[dst + i] = str[i]` in increasing `i`. -/
def copyIn (v : List Byte) (dst : Nat) : List Byte → List Byte
  | [] => v
  | x :: xs => copyIn (v.set dst x) (dst + 1) xs

/-- `Buffer::MakeSpace_`: `buffer_.resize(writePos_ + len + 1)` when
`WritableBytes() + PrependableBytes() < len`; else
`std::copy(BeginPtr_() + readPos_, BeginPtr_() + writePos_, BeginPtr_())`, a copy of
`writePos_ - readPos_` elements (the distance of the two pointers), then
`readPos_ = 0; writePos_ = readPos_ + readable;`. The result is `none` when
`assert(readable == ReadableBytes())` fails. -/
def Buffer.MakeSpace_ (b : Buffer) (len : Nat) : Option Buffer :=
  if szAdd b.WritableBytes b.PrependableBytes < len then
    some { b with buffer_ := resize b.buffer_ (szAdd (szAdd b.writePos_ len) 1) }
  else
    let readable := b.ReadableBytes
    let b1 : Buffer :=
      { buffer_ := copyWithin b.buffer_ b.readPos_ 0 (b.writePos_ - b.readPos_),
        readPos_ := 0,
        writePos_ := szAdd 0 readable }
    if readable = b1.ReadableBytes then some b1 else none

/-- `Buffer::EnsureWriteable`: `MakeSpace_(len)` when `WritableBytes() < len`, then
`assert(WritableBytes() >= len)`. -/
def Buffer.EnsureWriteable (b : Buffer) (len : Nat) : Option Buffer :=
  (if b.WritableBytes < len then b.MakeSpace_ len else some b).bind fun b1 =>
    if len ≤ b1.WritableBytes then some b1 else none

/-- `Buffer::Append(const char* str, size_t len)`: `str` is the caller's array (not
null), of which the first `len` bytes are copied to `BeginWrite()` after
`EnsureWriteable(len)`, followed by `HasWritten(len)`. -/
def Buffer.Append (b : Buffer) (str : List Byte) (len : Nat) : Option Buffer :=
  (b.EnsureWriteable len).map fun b1 =>
    Buffer.HasWritten { b1 with buffer_ := copyIn b1.buffer_ b1.writePos_ (str.take len) } len

/-- Result of a descriptor operation: the buffer afterwards, the returned `ssize_t`
and the value of the out-parameter `*saveErrno` afterwards. -/
structure FdResult where
  buf : Buffer
  ret : Int
  saveErrno : Int
deriving DecidableEq

/-- `sizeof(buff)`: the size of the stack-local scratch array of `ReadFd`. -/
def SCRATCH_SIZE : Nat := 65535

/-- `Buffer::ReadFd`. The call `readv(fd, iov, 2)` is represented by what it did: its
return value `len`, the `errno` it left, and the bytes `data` it delivered, which it
scatters first over `iov[0]` (the `writable` bytes at `BeginPtr_() + writePos_`) and
then over `iov[1]` (the scratch array `buff`). A failing call (`len < 0`) delivers
nothing. `saveErrno` is the old value of `*saveErrno`. -/
def Buffer.ReadFd (b : Buffer) (len : Int) (data : List Byte) (errno saveErrno : Int) :
    Option FdResult :=
  let writable := b.WritableBytes
  if len < 0 then
    some { buf := b, ret := len, saveErrno := errno }
  else
    let b0 : Buffer := { b with buffer_ := copyIn b.buffer_ b.writePos_ (data.take writable) }
    let buff := data.drop writable
    if toSize len ≤ writable then
      some { buf := { b0 with writePos_ := szAdd b0.writePos_ (toSize len) },
             ret := len, saveErrno := saveErrno }
    else
      (Buffer.Append { b0 with writePos_ := b0.buffer_.length } buff
          (szSub (toSize len) writable)).map
        fun b2 => { buf := b2, ret := len, saveErrno := saveErrno }

/-- `Buffer::WriteFd`. The call `write(fd, Peek(), readSize)` is represented by the
function `write`, which maps the span it is offered to its return value and the
`errno` it leaves. `saveErrno` is the old value of `*saveErrno`. -/
def Buffer.WriteFd (b : Buffer) (write : List Byte → Int × Int) (saveErrno : Int) :
    FdResult :=
  let readSize := b.ReadableBytes
  let res := write (b.peekN readSize)
  if res.1 < 0 then
    { buf := b, ret := res.1, saveErrno := res.2 }
  else
    { buf := { b with readPos_ := szAdd b.readPos_ (toSize res.1) },
      ret := res.1, saveErrno := saveErrno }

/-! ## Predicates and closed forms used in the statements -/

/-- The cursor invariant of the data model: `0 ≤ readPos ≤ writePos ≤ store.length`. -/
def Buffer.Inv (b : Buffer) : Prop :=
  b.readPos_ ≤ b.writePos_ ∧ b.writePos_ ≤ b.buffer_.length

instance (b : Buffer) : Decidable b.Inv := by
  unfold Buffer.Inv; infer_instance

/-- The store length is a `size_t` value, as `buffer_.size()` of every vector in a
64-bit address space is. Together with the cursor invariant it makes both cursors
`size_t` values. -/
def Buffer.Representable (b : Buffer) : Prop := b.buffer_.length < SIZE_MOD

instance (b : Buffer) : Decidable b.Representable := by
  unfold Buffer.Representable; infer_instance

/-- The length `writePos_ + len + 1` requested by the growth branch of `MakeSpace_`
does not wrap around in `size_t`. -/
def Buffer.GrowFits (b : Buffer) (len : Nat) : Prop := b.writePos_ + len + 1 < SIZE_MOD

instance (b : Buffer) (len : Nat) : Decidable (b.GrowFits len) := by
  unfold Buffer.GrowFits; infer_instance

/-- The growth branch of `MakeSpace_`, if it is the one taken for `len`, asks for a
length `writePos_ + len + 1` that does not wrap around in `size_t`. -/
def Buffer.NoWrap (b : Buffer) (len : Nat) : Prop :=
  b.WritableBytes + b.PrependableBytes < len → b.GrowFits len

instance (b : Buffer) (len : Nat) : Decidable (b.NoWrap len) := by
  unfold Buffer.NoWrap; infer_instance

/-- `std::vector<char>::max_size()` of the standard library on LP64 Linux: `PTRDIFF_MAX`,
`2^63 - 1`. A `resize` to a longer length throws `std::length_error`. -/
def MAX_SIZE : Nat := 9223372036854775807

/-- The growth branch of `MakeSpace_`, if it is the one taken for `len`, asks for a
length `writePos_ + len + 1` that the vector accepts: at most `max_size()`, so that
`resize` neither throws nor gets a length that has wrapped around in `size_t`. -/
def Buffer.Accepted (b : Buffer) (len : Nat) : Prop :=
  b.WritableBytes + b.PrependableBytes < len → b.writePos_ + len + 1 ≤ MAX_SIZE

instance (b : Buffer) (len : Nat) : Decidable (b.Accepted len) := by
  unfold Buffer.Accepted; infer_instance

/-- Closed form of the state after the growth branch of `MakeSpace_`. -/
def Buffer.grown (b : Buffer) (len : Nat) : Buffer :=
  { b with
    buffer_ := b.buffer_ ++ List.replicate (b.writePos_ + len + 1 - b.buffer_.length) 0 }

/-- Closed form of the state after the compaction branch of `MakeSpace_`. -/
def Buffer.compacted (b : Buffer) : Buffer :=
  { buffer_ := b.readable ++ b.buffer_.drop (b.writePos_ - b.readPos_),
    readPos_ := 0,
    writePos_ := b.writePos_ - b.readPos_ }

/-- Closed form of the state after `B` has been copied to the write cursor and the
cursor advanced by `B.length`. -/
def Buffer.written (b : Buffer) (B : List Byte) : Buffer :=
  { buffer_ := b.buffer_.take b.writePos_ ++ B ++ b.buffer_.drop (b.writePos_ + B.length),
    readPos_ := b.readPos_,
    writePos_ := b.writePos_ + B.length }

/-- Largest value of the `int` parameter of the constructor. -/
def INT_MAX : Nat := 2147483647

/-- The states reachable from `Buffer(initBuffSize)` through the public operations, each
used within its documented precondition: `Retrieve` with `len ≤ ReadableBytes()`,
`HasWritten` with `len ≤ WritableBytes()`, `ReadFd` with a result of at most
`writable + 65535` bytes (all of them delivered), `WriteFd` with a result of at most
`ReadableBytes()`. In addition the operations that can grow the store (`Append`,
`EnsureWriteable`, `ReadFd`) are used with a length for which the grown store length
does not wrap around in `size_t`. -/
inductive Reachable (initBuffSize : Nat) : Buffer → Prop
  | construct : Reachable initBuffSize (Buffer.new initBuffSize)
  | retrieve {b b1 : Buffer} (len : Nat) :
      Reachable initBuffSize b → len ≤ b.ReadableBytes → b.Retrieve len = some b1 →
      Reachable initBuffSize b1
  | hasWritten {b : Buffer} (len : Nat) :
      Reachable initBuffSize b → len ≤ b.WritableBytes →
      Reachable initBuffSize (b.HasWritten len)
  | append {b b1 : Buffer} (B : List Byte) :
      Reachable initBuffSize b → b.NoWrap B.length → b.Append B B.length = some b1 →
      Reachable initBuffSize b1
  | ensureWriteable {b b1 : Buffer} (len : Nat) :
      Reachable initBuffSize b → b.NoWrap len → b.EnsureWriteable len = some b1 →
      Reachable initBuffSize b1
  | retrieveAll {b : Buffer} :
      Reachable initBuffSize b → Reachable initBuffSize b.RetrieveAll
  | retrieveAllToStr {b : Buffer} :
      Reachable initBuffSize b → Reachable initBuffSize b.RetrieveAllToStr.2
  | readFd {b : Buffer} {r : FdResult} (len : Int) (data : List Byte) (errno saveErrno : Int) :
      Reachable initBuffSize b → len ≤ (b.WritableBytes : Int) + (SCRATCH_SIZE : Int) →
      (0 ≤ len → (data.length : Int) = len) →
      b.buffer_.length + SCRATCH_SIZE + 1 < SIZE_MOD →
      b.ReadFd len data errno saveErrno = some r →
      Reachable initBuffSize r.buf
  | writeFd {b : Buffer} (write : List Byte → Int × Int) (saveErrno : Int) :
      Reachable initBuffSize b →
      (write (b.peekN b.ReadableBytes)).1 ≤ (b.ReadableBytes : Int) →
      Reachable initBuffSize (b.WriteFd write saveErrno).buf

/-- The bytes of the text "ABCDEFGH". -/
def ABCDEFGH : List Byte := [65, 66, 67, 68, 69, 70, 71, 72]

/-- The buffer of capacity 10 after "ABCDEFGH" has been appended to it. -/
def bufABCDEFGH : Buffer :=
  { buffer_ := [65, 66, 67, 68, 69, 70, 71, 72, 0, 0], readPos_ := 0, writePos_ := 8 }

/-- The buffer `bufABCDEFGH` after `Retrieve(5)`: its readable region is "FGH". -/
def bufFGH : Buffer :=
  { buffer_ := [65, 66, 67, 68, 69, 70, 71, 72, 0, 0], readPos_ := 5, writePos_ := 8 }

/-- The buffer `bufFGH` after the six bytes 1, ..., 6 have been appended to it. -/
def bufFGH123456 : Buffer :=
  { buffer_ := [70, 71, 72, 1, 2, 3, 4, 5, 6, 0], readPos_ := 0, writePos_ := 9 }

/-- The value of `errno` for "operation would block" (`EAGAIN`, `EWOULDBLOCK`) on Linux. -/
def EAGAIN : Int := 11

/-- What one successful `readv(fd, iov, 2)` transfers at most from a descriptor in
which the bytes `pending` are ready: a call never transfers more than
`iov[0].iov_len + iov[1].iov_len` bytes, here the first ones in arrival order. -/
def readvMax (pending : List Byte) (iov0_len iov1_len : Nat) : List Byte :=
  pending.take (iov0_len + iov1_len)

/-- `ReadFd` on a descriptor in which the bytes `pending` are ready, when the `readv`
call takes as many of them as its two spans (`writable` bytes of the store and the
`sizeof(buff)` bytes of the scratch array) can hold. -/
def Buffer.ReadFdPending (b : Buffer) (pending : List Byte) (saveErrno : Int) :
    Option FdResult :=
  b.ReadFd ((readvMax pending b.WritableBytes SCRATCH_SIZE).length : Int)
    (readvMax pending b.WritableBytes SCRATCH_SIZE) 0 saveErrno

/-- The four operations of the FIFO view of the buffer. -/
inductive QueueOp
  | Append (B : List Byte)
  | Retrieve (len : Nat)
  | EnsureWriteable (len : Nat)
  | RetrieveAll
deriving DecidableEq

/-- What the code does for an operation of the FIFO view. -/
def QueueOp.run : QueueOp → Buffer → Option Buffer
  | .Append B, b => b.Append B B.length
  | .Retrieve len, b => b.Retrieve len
  | .EnsureWriteable len, b => b.EnsureWriteable len
  | .RetrieveAll, b => some b.RetrieveAll

/-- The abstract byte queue, in the words of the specification: `Append` enqueues at
the back, `Retrieve(len)` drops the first `len` bytes, `EnsureWriteable` does nothing
and `RetrieveAll` clears the queue. -/
def QueueOp.abstractStep : QueueOp → List Byte → List Byte
  | .Append B, q => q ++ B
  | .Retrieve len, q => q.drop len
  | .EnsureWriteable _, q => q
  | .RetrieveAll, _ => []

/-- The condition under which an operation of the FIFO view is used: `Retrieve` with
`len ≤ ReadableBytes()`; `Append` and `EnsureWriteable` with a length for which the
growth branch, if taken, asks for a store length that the vector accepts. -/
def QueueOp.pre : QueueOp → Buffer → Prop
  | .Append B, b => b.Accepted B.length
  | .Retrieve len, b => len ≤ b.ReadableBytes
  | .EnsureWriteable len, b => b.Accepted len
  | .RetrieveAll, _ => True

instance (op : QueueOp) (b : Buffer) : Decidable (op.pre b) := by
  cases op <;> unfold QueueOp.pre <;> infer_instance

/-- A sequence of operations run by the code; `none` when one of them aborts. -/
def runOps : List QueueOp → Buffer → Option Buffer
  | [], b => some b
  | op :: ops, b => (op.run b).bind (runOps ops)

/-- The same sequence of operations on the abstract byte queue. -/
def runAbstract : List QueueOp → List Byte → List Byte
  | [], q => q
  | op :: ops, q => runAbstract ops (op.abstractStep q)

/-- Every operation of the sequence is used under its condition `QueueOp.pre`, in the
state in which the code reaches it. -/
def Admissible : List QueueOp → Buffer → Prop
  | [], _ => True
  | op :: ops, b =>
    op.pre b ∧
      match op.run b with
      | some b1 => Admissible ops b1
      | none => True

/-- The condition `Admissible` is decided by running the sequence. -/
def Admissible.dec : (ops : List QueueOp) → (b : Buffer) → Decidable (Admissible ops b)
  | [], _ => isTrue trivial
  | op :: ops, b =>
    have h2 : Decidable (match op.run b with
        | some b1 => Admissible ops b1
        | none => True) :=
      match op.run b with
      | some b1 => Admissible.dec ops b1
      | none => isTrue trivial
    @instDecidableAnd _ _ _ h2

instance (ops : List QueueOp) (b : Buffer) : Decidable (Admissible ops b) :=
  Admissible.dec ops b

/-- A store of 100 zero bytes with both cursors at 0: 100 writable bytes. -/
def bufW100 : Buffer := Buffer.new 100

/-- The bytes 1, 2, 3 ready in a descriptor. -/
def bytes123 : List Byte := [1, 2, 3]

/-- The buffer holding the unread bytes "XY" in a store of 4 bytes. -/
def bufXY : Buffer := { buffer_ := [0, 88, 89, 0], readPos_ := 1, writePos_ := 3 }

/-! ## Lemmas on the arithmetic and on the copies -/

theorem szAdd_eq {a b : Nat} (h : a + b < SIZE_MOD) : szAdd a b = a + b := by
  unfold szAdd; exact Nat.mod_eq_of_lt h

theorem szSub_eq {a b : Nat} (h : b ≤ a) (ha : a < SIZE_MOD) : szSub a b = a - b := by
  unfold szSub SIZE_MOD at *; omega

theorem copyIn_length (v : List Byte) (dst : Nat) (s : List Byte) :
    (copyIn v dst s).length = v.length := by
  induction s generalizing v dst with
  | nil => rfl
  | cons x xs ih => simp [copyIn, ih]

theorem copyIn_getElem? (v : List Byte) (dst : Nat) (s : List Byte) (i : Nat)
    (h : dst + s.length ≤ v.length) :
    (copyIn v dst s)[i]? = if dst ≤ i ∧ i < dst + s.length then s[i - dst]? else v[i]? := by
  induction s generalizing v dst with
  | nil =>
    have : ¬ (dst ≤ i ∧ i < dst + ([] : List Byte).length) := by simp
    rw [if_neg this]; rfl
  | cons x xs ih =>
    simp only [List.length_cons] at h ⊢
    rw [copyIn, ih _ _ (by simp; omega)]
    by_cases h1 : dst + 1 ≤ i
    · have e : i - dst = (i - (dst + 1)) + 1 := by omega
      by_cases h2 : i < dst + 1 + xs.length
      · rw [if_pos ⟨h1, h2⟩, if_pos ⟨by omega, by omega⟩, e, List.getElem?_cons_succ]
      · rw [if_neg (by omega), if_neg (by omega), List.getElem?_set, if_neg (by omega)]
    · rw [if_neg (by omega), List.getElem?_set]
      by_cases h3 : dst = i
      · subst h3
        rw [if_pos rfl, if_pos (by omega), if_pos ⟨by omega, by omega⟩]
        simp
      · rw [if_neg h3, if_neg (by omega)]

theorem copyIn_eq (v : List Byte) (dst : Nat) (s : List Byte)
    (h : dst + s.length ≤ v.length) :
    copyIn v dst s = v.take dst ++ s ++ v.drop (dst + s.length) := by
  apply List.ext_getElem?
  intro i
  rw [copyIn_getElem? v dst s i h, List.append_assoc, List.getElem?_append,
    List.getElem?_append, List.getElem?_take, List.getElem?_drop]
  simp only [List.length_take, Nat.min_eq_left (show dst ≤ v.length by omega)]
  by_cases h1 : i < dst
  · rw [if_neg (by omega), if_pos h1, if_pos h1]
  · rw [if_neg h1]
    by_cases h2 : i - dst < s.length
    · rw [if_pos ⟨by omega, by omega⟩, if_pos h2]
    · rw [if_neg (by omega), if_neg h2]
      congr 1; omega

theorem copyWithin_length (v : List Byte) (src dst n : Nat) :
    (copyWithin v src dst n).length = v.length := by
  induction n generalizing v src dst with
  | zero => rfl
  | succ n ih => simp [copyWithin, ih]

theorem copyWithin_getElem? (v : List Byte) (src dst n i : Nat)
    (hd : dst ≤ src) (h : src + n ≤ v.length) :
    (copyWithin v src dst n)[i]? =
      if dst ≤ i ∧ i < dst + n then v[src + (i - dst)]? else v[i]? := by
  induction n generalizing v src dst with
  | zero =>
    have : ¬ (dst ≤ i ∧ i < dst + 0) := by omega
    rw [if_neg this]; rfl
  | succ n ih =>
    rw [copyWithin, ih _ _ _ (by omega) (by simp; omega)]
    have hs : src < v.length := by omega
    by_cases h1 : dst + 1 ≤ i
    · by_cases h2 : i < dst + 1 + n
      · rw [if_pos ⟨h1, h2⟩, if_pos ⟨by omega, by omega⟩, List.getElem?_set,
          if_neg (by omega)]
        congr 1; omega
      · rw [if_neg (by omega), if_neg (by omega), List.getElem?_set, if_neg (by omega)]
    · rw [if_neg (by omega), List.getElem?_set]
      by_cases h3 : dst = i
      · subst h3
        rw [if_pos rfl, if_pos (by omega), if_pos ⟨by omega, by omega⟩]
        simp [List.getElem?_eq_getElem hs]
      · rw [if_neg h3, if_neg (by omega)]

theorem copyWithin_zero_eq (v : List Byte) (src n : Nat) (h : src + n ≤ v.length) :
    copyWithin v src 0 n = (v.drop src).take n ++ v.drop n := by
  apply List.ext_getElem?
  intro i
  rw [copyWithin_getElem? v src 0 n i (Nat.zero_le _) h, List.getElem?_append,
    List.getElem?_take, List.getElem?_drop, List.getElem?_drop]
  simp only [List.length_take, List.length_drop, Nat.min_eq_left (show n ≤ v.length - src by omega)]
  by_cases h1 : i < n
  · rw [if_pos ⟨by omega, by omega⟩, if_pos h1, if_pos h1]; rfl
  · rw [if_neg (by omega), if_neg h1]
    congr 1; omega

theorem resize_length (v : List Byte) (n : Nat) : (resize v n).length = n := by
  simp [resize]; omega

theorem resize_eq_of_le (v : List Byte) (n : Nat) (h : v.length ≤ n) :
    resize v n = v ++ List.replicate (n - v.length) 0 := by
  simp [resize, List.take_of_length_le h]

/-! ## Lemmas on the three paths of `EnsureWriteable` and on `Append` -/

theorem Buffer.ReadableBytes_eq {b : Buffer} (hi : b.Inv) (hr : b.Representable) :
    b.ReadableBytes = b.writePos_ - b.readPos_ := by
  obtain ⟨h1, h2⟩ := hi
  exact szSub_eq h1 (Nat.lt_of_le_of_lt h2 hr)

theorem Buffer.WritableBytes_eq {b : Buffer} (hi : b.Inv) (hr : b.Representable) :
    b.WritableBytes = b.buffer_.length - b.writePos_ :=
  szSub_eq hi.2 hr

theorem Buffer.readable_eq {b : Buffer} (hi : b.Inv) (hr : b.Representable) :
    b.readable = (b.buffer_.drop b.readPos_).take (b.writePos_ - b.readPos_) := by
  unfold Buffer.readable Buffer.peekN Buffer.Peek
  rw [Buffer.ReadableBytes_eq hi hr]

theorem Buffer.readable_length {b : Buffer} (hi : b.Inv) (hr : b.Representable) :
    b.readable.length = b.writePos_ - b.readPos_ := by
  rw [Buffer.readable_eq hi hr]
  obtain ⟨h1, h2⟩ := hi
  simp; omega

/-- Growth branch of `MakeSpace_` when the requested length does not wrap. -/
theorem Buffer.MakeSpace__grow {b : Buffer} {len : Nat} (hi : b.Inv) (hr : b.Representable)
    (hlt : b.WritableBytes + b.PrependableBytes < len) (hfit : b.GrowFits len) :
    b.MakeSpace_ len = some { b with
      buffer_ := b.buffer_ ++ List.replicate (b.writePos_ + len + 1 - b.buffer_.length) 0 } := by
  have hW := Buffer.WritableBytes_eq hi hr
  obtain ⟨h1, h2⟩ := hi
  unfold Buffer.GrowFits at hfit
  unfold Buffer.Representable at hr
  unfold Buffer.PrependableBytes at hlt
  have hsum : szAdd b.WritableBytes b.PrependableBytes = b.WritableBytes + b.readPos_ := by
    unfold Buffer.PrependableBytes
    exact szAdd_eq (by rw [hW]; omega)
  have hn : szAdd (szAdd b.writePos_ len) 1 = b.writePos_ + len + 1 := by
    rw [@szAdd_eq b.writePos_ len (by omega), szAdd_eq hfit]
  unfold Buffer.MakeSpace_
  rw [hsum, if_pos hlt, hn, resize_eq_of_le _ _ (by rw [hW] at hlt; omega)]

/-- Compaction branch of `MakeSpace_`. -/
theorem Buffer.MakeSpace__compact {b : Buffer} {len : Nat} (hi : b.Inv) (hr : b.Representable)
    (hle : len ≤ b.WritableBytes + b.PrependableBytes) :
    b.MakeSpace_ len = some
      { buffer_ := b.readable ++ b.buffer_.drop (b.writePos_ - b.readPos_),
        readPos_ := 0,
        writePos_ := b.writePos_ - b.readPos_ } := by
  have hW := Buffer.WritableBytes_eq hi hr
  have hR := Buffer.ReadableBytes_eq hi hr
  have hrd := Buffer.readable_eq hi hr
  obtain ⟨h1, h2⟩ := hi
  unfold Buffer.Representable at hr
  unfold Buffer.PrependableBytes at hle
  have hsum : szAdd b.WritableBytes b.PrependableBytes = b.WritableBytes + b.readPos_ := by
    unfold Buffer.PrependableBytes
    exact szAdd_eq (by rw [hW]; omega)
  have hw : szAdd 0 (b.writePos_ - b.readPos_) = b.writePos_ - b.readPos_ :=
    (szAdd_eq (by omega)).trans (Nat.zero_add _)
  unfold Buffer.MakeSpace_
  rw [hsum, if_neg (by omega)]
  simp only [hR, hw]
  rw [copyWithin_zero_eq _ _ _ (by omega), ← hrd]
  have : szSub (b.writePos_ - b.readPos_) 0 = b.writePos_ - b.readPos_ :=
    szSub_eq (Nat.zero_le _) (by omega)
  simp [Buffer.ReadableBytes, this]

theorem readable_after_write (v B : List Byte) {r w : Nat} (h1 : r ≤ w)
    (hroom : w + B.length ≤ v.length) :
    ((v.take w ++ B ++ v.drop (w + B.length)).drop r).take (w + B.length - r) =
      (v.drop r).take (w - r) ++ B := by
  have e1 : (v.take w).length = w := by simp; omega
  have e2 : ((v.take w).drop r ++ B).length = w + B.length - r := by simp; omega
  rw [List.append_assoc, List.drop_append_of_le_length (by omega), ← List.append_assoc, ← e2,
    List.take_left, List.drop_take]

theorem Buffer.EnsureWriteable_fits {b : Buffer} {len : Nat} (h : len ≤ b.WritableBytes) :
    b.EnsureWriteable len = some b := by
  unfold Buffer.EnsureWriteable
  rw [if_neg (by omega)]
  simp [h]

theorem Buffer.grown_props {b : Buffer} {len : Nat} (hi : b.Inv) (hr : b.Representable)
    (hlt : b.WritableBytes + b.PrependableBytes < len) (hfit : b.GrowFits len) :
    (b.grown len).Inv ∧ (b.grown len).Representable ∧
      (b.grown len).buffer_.length = b.writePos_ + len + 1 ∧
      (b.grown len).readable = b.readable := by
  have hW := Buffer.WritableBytes_eq hi hr
  have hi0 := hi
  obtain ⟨h1, h2⟩ := hi
  unfold Buffer.GrowFits at hfit
  unfold Buffer.PrependableBytes at hlt
  have hlen : (b.grown len).buffer_.length = b.writePos_ + len + 1 := by
    simp [Buffer.grown]; omega
  have hi' : (b.grown len).Inv := ⟨h1, by rw [hlen]; show b.writePos_ ≤ _; omega⟩
  have hr' : (b.grown len).Representable := by
    unfold Buffer.Representable; rw [hlen]; exact hfit
  refine ⟨hi', hr', hlen, ?_⟩
  rw [Buffer.readable_eq hi' hr', Buffer.readable_eq hi0 hr]
  show ((b.buffer_ ++ _).drop b.readPos_).take (b.writePos_ - b.readPos_) = _
  rw [List.drop_append_of_le_length (by omega), List.take_append_of_le_length (by simp; omega)]

theorem Buffer.compacted_props {b : Buffer} (hi : b.Inv) (hr : b.Representable) :
    b.compacted.Inv ∧ b.compacted.Representable ∧
      b.compacted.buffer_.length = b.buffer_.length ∧
      b.compacted.readable = b.readable := by
  have hl := Buffer.readable_length hi hr
  have hi0 := hi
  obtain ⟨h1, h2⟩ := hi
  have hlen : b.compacted.buffer_.length = b.buffer_.length := by
    simp [Buffer.compacted, hl]; omega
  have hi' : b.compacted.Inv := ⟨Nat.zero_le _, by rw [hlen]; show b.writePos_ - b.readPos_ ≤ _; omega⟩
  have hr' : b.compacted.Representable := by
    unfold Buffer.Representable; rw [hlen]; exact hr
  refine ⟨hi', hr', hlen, ?_⟩
  rw [Buffer.readable_eq hi' hr']
  show ((b.readable ++ _).drop 0).take (b.writePos_ - b.readPos_ - 0) = _
  rw [List.drop_zero, Nat.sub_zero, ← hl, List.take_left]

theorem Buffer.written_props {b : Buffer} {B : List Byte} (hi : b.Inv) (hr : b.Representable)
    (hroom : b.writePos_ + B.length ≤ b.buffer_.length) :
    (b.written B).Inv ∧ (b.written B).Representable ∧
      (b.written B).buffer_.length = b.buffer_.length ∧
      (b.written B).readable = b.readable ++ B := by
  have hi0 := hi
  obtain ⟨h1, h2⟩ := hi
  have hlen : (b.written B).buffer_.length = b.buffer_.length := by
    simp [Buffer.written]; omega
  have hi' : (b.written B).Inv :=
    ⟨by show b.readPos_ ≤ b.writePos_ + B.length; omega,
     by rw [hlen]; exact hroom⟩
  have hr' : (b.written B).Representable := by
    unfold Buffer.Representable; rw [hlen]; exact hr
  refine ⟨hi', hr', hlen, ?_⟩
  rw [Buffer.readable_eq hi' hr', Buffer.readable_eq hi0 hr]
  show ((b.buffer_.take b.writePos_ ++ B ++ _).drop b.readPos_).take
    (b.writePos_ + B.length - b.readPos_) = _
  exact readable_after_write b.buffer_ B h1 hroom

theorem Buffer.EnsureWriteable_compact {b : Buffer} {len : Nat} (hi : b.Inv)
    (hr : b.Representable) (h1 : b.WritableBytes < len)
    (h2 : len ≤ b.WritableBytes + b.PrependableBytes) :
    b.EnsureWriteable len = some b.compacted := by
  obtain ⟨hi', hr', hlen, -⟩ := Buffer.compacted_props hi hr
  have hW' := Buffer.WritableBytes_eq hi' hr'
  have hW := Buffer.WritableBytes_eq hi hr
  have hw' : b.compacted.writePos_ = b.writePos_ - b.readPos_ := rfl
  have hP : b.PrependableBytes = b.readPos_ := rfl
  obtain ⟨i1, i2⟩ := hi
  unfold Buffer.EnsureWriteable
  rw [if_pos h1, Buffer.MakeSpace__compact ⟨i1, i2⟩ hr h2]
  show (if len ≤ b.compacted.WritableBytes then some b.compacted else none) = _
  rw [if_pos (by omega)]

theorem Buffer.EnsureWriteable_grow {b : Buffer} {len : Nat} (hi : b.Inv)
    (hr : b.Representable) (hlt : b.WritableBytes + b.PrependableBytes < len)
    (hfit : b.GrowFits len) :
    b.EnsureWriteable len = some (b.grown len) := by
  obtain ⟨hi', hr', hlen, -⟩ := Buffer.grown_props hi hr hlt hfit
  have hW' := Buffer.WritableBytes_eq hi' hr'
  have hw' : (b.grown len).writePos_ = b.writePos_ := rfl
  unfold Buffer.EnsureWriteable
  rw [if_pos (by omega), Buffer.MakeSpace__grow hi hr hlt hfit]
  show (if len ≤ (b.grown len).WritableBytes then some (b.grown len) else none) = _
  rw [if_pos (by omega)]

/-- `EnsureWriteable` on a valid state, in all three paths: it returns a valid state
with the same readable region, real room for `len` bytes behind the write cursor, and
a store that is not shorter. -/
theorem Buffer.EnsureWriteable_ok {b : Buffer} {len : Nat} (hi : b.Inv)
    (hr : b.Representable) (hnw : b.NoWrap len) :
    ∃ b1, b.EnsureWriteable len = some b1 ∧ b1.Inv ∧ b1.Representable ∧
      b1.readable = b.readable ∧ b1.writePos_ + len ≤ b1.buffer_.length ∧
      b.buffer_.length ≤ b1.buffer_.length := by
  have hW := Buffer.WritableBytes_eq hi hr
  have hP : b.PrependableBytes = b.readPos_ := rfl
  by_cases c1 : len ≤ b.WritableBytes
  · exact ⟨b, Buffer.EnsureWriteable_fits c1, hi, hr, rfl, by have := hi.2; omega,
      Nat.le_refl _⟩
  · by_cases c2 : len ≤ b.WritableBytes + b.PrependableBytes
    · obtain ⟨hi', hr', hlen, hrd⟩ := Buffer.compacted_props hi hr
      refine ⟨b.compacted, Buffer.EnsureWriteable_compact hi hr (by omega) c2, hi', hr', hrd,
        ?_, by omega⟩
      have hw' : b.compacted.writePos_ = b.writePos_ - b.readPos_ := rfl
      have := hi.1; have := hi.2
      omega
    · have hlt : b.WritableBytes + b.PrependableBytes < len := by omega
      obtain ⟨hi', hr', hlen, hrd⟩ := Buffer.grown_props hi hr hlt (hnw hlt)
      refine ⟨b.grown len, Buffer.EnsureWriteable_grow hi hr hlt (hnw hlt), hi', hr', hrd,
        ?_, ?_⟩
      · have hw' : (b.grown len).writePos_ = b.writePos_ := rfl
        omega
      · have := hi.2
        omega

theorem Buffer.Append_of_ensure {b b1 : Buffer} {B : List Byte}
    (h : b.EnsureWriteable B.length = some b1) (hr1 : b1.Representable)
    (hroom : b1.writePos_ + B.length ≤ b1.buffer_.length) :
    b.Append B B.length = some (b1.written B) := by
  unfold Buffer.Representable at hr1
  unfold Buffer.Append
  rw [h, Option.map_some', List.take_length, copyIn_eq _ _ _ hroom]
  simp only [Buffer.HasWritten, Buffer.written]
  rw [szAdd_eq (by omega)]

/-- `Append` on a valid state, in all three paths: it returns a valid state whose
readable region is the old one followed by the payload. -/
theorem Buffer.Append_ok {b : Buffer} {B : List Byte} (hi : b.Inv)
    (hr : b.Representable) (hnw : b.NoWrap B.length) :
    ∃ b2, b.Append B B.length = some b2 ∧ b2.Inv ∧ b2.Representable ∧
      b2.readable = b.readable ++ B ∧ b.buffer_.length ≤ b2.buffer_.length := by
  obtain ⟨b1, he, hi1, hr1, hrd1, hroom, hge⟩ := Buffer.EnsureWriteable_ok hi hr hnw
  obtain ⟨hi2, hr2, hlen2, hrd2⟩ := Buffer.written_props hi1 hr1 hroom
  exact ⟨b1.written B, Buffer.Append_of_ensure he hr1 hroom, hi2, hr2, by rw [hrd2, hrd1],
    by omega⟩

/-! ## Every operation keeps the state valid -/

theorem toSize_eq {n : Int} (h0 : 0 ≤ n) (h1 : n < (SIZE_MOD : Int)) : toSize n = n.toNat := by
  unfold toSize
  rw [Int.emod_eq_of_lt h0 h1]

theorem Buffer.Retrieve_valid {b b1 : Buffer} {len : Nat} (hi : b.Inv) (hr : b.Representable)
    (h : b.Retrieve len = some b1) :
    len ≤ b.ReadableBytes ∧ b1 = { b with readPos_ := b.readPos_ + len } ∧ b1.Inv ∧
      b1.Representable := by
  have hR := Buffer.ReadableBytes_eq hi hr
  obtain ⟨i1, i2⟩ := hi
  unfold Buffer.Representable at hr
  unfold Buffer.Retrieve at h
  by_cases c : len ≤ b.ReadableBytes
  · rw [if_pos c, szAdd_eq (by omega)] at h
    cases h
    exact ⟨c, rfl, ⟨by show b.readPos_ + len ≤ b.writePos_; omega, i2⟩, hr⟩
  · rw [if_neg c] at h
    cases h

theorem Buffer.HasWritten_valid {b : Buffer} {len : Nat} (hi : b.Inv) (hr : b.Representable)
    (h : len ≤ b.WritableBytes) :
    b.HasWritten len = { b with writePos_ := b.writePos_ + len } ∧ (b.HasWritten len).Inv ∧
      (b.HasWritten len).Representable := by
  have hW := Buffer.WritableBytes_eq hi hr
  obtain ⟨i1, i2⟩ := hi
  unfold Buffer.Representable at hr
  have e : b.HasWritten len = { b with writePos_ := b.writePos_ + len } := by
    unfold Buffer.HasWritten
    rw [szAdd_eq (by omega)]
  rw [e]
  exact ⟨rfl, ⟨by show b.readPos_ ≤ b.writePos_ + len; omega,
    by show b.writePos_ + len ≤ b.buffer_.length; omega⟩, hr⟩

theorem Buffer.RetrieveAll_valid {b : Buffer} (hr : b.Representable) :
    b.RetrieveAll.Inv ∧ b.RetrieveAll.Representable := by
  unfold Buffer.Representable at *
  refine ⟨⟨Nat.le_refl _, Nat.zero_le _⟩, ?_⟩
  simpa [Buffer.RetrieveAll] using hr

theorem Buffer.new_valid {initBuffSize : Nat} (h : initBuffSize ≤ INT_MAX) :
    (Buffer.new initBuffSize).Inv ∧ (Buffer.new initBuffSize).Representable := by
  refine ⟨⟨Nat.le_refl _, Nat.zero_le _⟩, ?_⟩
  unfold Buffer.Representable
  simp only [Buffer.new, List.length_replicate]
  unfold INT_MAX at h
  unfold SIZE_MOD
  omega

theorem Buffer.WriteFd_valid {b : Buffer} (write : List Byte → Int × Int) (saveErrno : Int)
    (hi : b.Inv) (hr : b.Representable)
    (h : (write (b.peekN b.ReadableBytes)).1 ≤ (b.ReadableBytes : Int)) :
    (b.WriteFd write saveErrno).buf.Inv ∧ (b.WriteFd write saveErrno).buf.Representable := by
  have hR := Buffer.ReadableBytes_eq hi hr
  have hi0 := hi
  obtain ⟨i1, i2⟩ := hi
  have hr0 := hr
  unfold Buffer.Representable at hr
  unfold Buffer.WriteFd
  simp only
  by_cases c : (write (b.peekN b.ReadableBytes)).1 < 0
  · rw [if_pos c]
    exact ⟨hi0, hr0⟩
  · rw [if_neg c]
    have hts := @toSize_eq (write (b.peekN b.ReadableBytes)).1 (by omega) (by omega)
    rw [hts, szAdd_eq (by omega)]
    exact ⟨⟨by show b.readPos_ + _ ≤ b.writePos_; omega, i2⟩, hr0⟩

theorem Buffer.ReadFd_valid {b : Buffer} {r : FdResult} {len : Int} {data : List Byte}
    {errno saveErrno : Int} (hi : b.Inv) (hr : b.Representable)
    (hlen : len ≤ (b.WritableBytes : Int) + (SCRATCH_SIZE : Int))
    (hdata : 0 ≤ len → (data.length : Int) = len)
    (hbig : b.buffer_.length + SCRATCH_SIZE + 1 < SIZE_MOD)
    (h : b.ReadFd len data errno saveErrno = some r) :
    r.buf.Inv ∧ r.buf.Representable := by
  have hW := Buffer.WritableBytes_eq hi hr
  have hi0 := hi
  obtain ⟨i1, i2⟩ := hi
  have hr0 := hr
  unfold Buffer.Representable at hr
  unfold SCRATCH_SIZE at hlen hbig
  unfold Buffer.ReadFd at h
  simp only at h
  by_cases c : len < 0
  · rw [if_pos c] at h
    cases h
    exact ⟨hi0, hr0⟩
  · rw [if_neg c] at h
    have hd := hdata (by omega)
    have hts := @toSize_eq len (by omega) (by omega)
    rw [hts] at h
    by_cases c2 : len.toNat ≤ b.WritableBytes
    · rw [if_pos c2, szAdd_eq (by omega)] at h
      cases h
      refine ⟨⟨by show b.readPos_ ≤ b.writePos_ + _; omega, ?_⟩, ?_⟩
      · show b.writePos_ + _ ≤ (copyIn _ _ _).length
        rw [copyIn_length]; omega
      · show (copyIn _ _ _).length < SIZE_MOD
        rw [copyIn_length]; exact hr
    · rw [if_neg c2] at h
      have hsub : szSub len.toNat b.WritableBytes = (data.drop b.WritableBytes).length := by
        rw [szSub_eq (by omega) (by omega), List.length_drop]
        omega
      rw [hsub, copyIn_length] at h
      have hi1 : Buffer.Inv { b with
          buffer_ := copyIn b.buffer_ b.writePos_ (data.take b.WritableBytes),
          writePos_ := b.buffer_.length } :=
        ⟨by show b.readPos_ ≤ b.buffer_.length; omega,
         by show b.buffer_.length ≤ (copyIn _ _ _).length; rw [copyIn_length]⟩
      have hr1 : Buffer.Representable { b with
          buffer_ := copyIn b.buffer_ b.writePos_ (data.take b.WritableBytes),
          writePos_ := b.buffer_.length } := by
        show (copyIn _ _ _).length < SIZE_MOD
        rw [copyIn_length]; exact hr
      have hnw : Buffer.NoWrap { b with
          buffer_ := copyIn b.buffer_ b.writePos_ (data.take b.WritableBytes),
          writePos_ := b.buffer_.length } (data.drop b.WritableBytes).length := by
        intro _
        show b.buffer_.length + _ + 1 < SIZE_MOD
        rw [List.length_drop]
        omega
      obtain ⟨b2, he, hi2, hr2, -, -⟩ := Buffer.Append_ok hi1 hr1 hnw
      rw [he] at h
      cases h
      exact ⟨hi2, hr2⟩

/-- Every reachable state satisfies the cursor invariant and has a store whose length
is a `size_t` value. -/
theorem Reachable.valid {initBuffSize : Nat} {b : Buffer} (hinit : initBuffSize ≤ INT_MAX)
    (h : Reachable initBuffSize b) : b.Inv ∧ b.Representable := by
  induction h with
  | construct => exact Buffer.new_valid hinit
  | retrieve len _ _ hret ih =>
    obtain ⟨-, -, h1, h2⟩ := Buffer.Retrieve_valid ih.1 ih.2 hret
    exact ⟨h1, h2⟩
  | hasWritten len _ hle ih =>
    exact (Buffer.HasWritten_valid ih.1 ih.2 hle).2
  | append B _ hnw happ ih =>
    obtain ⟨b2, he, h1, h2, -, -⟩ := Buffer.Append_ok ih.1 ih.2 hnw
    rw [he] at happ
    cases happ
    exact ⟨h1, h2⟩
  | ensureWriteable len _ hnw hens ih =>
    obtain ⟨b2, he, h1, h2, -, -⟩ := Buffer.EnsureWriteable_ok ih.1 ih.2 hnw
    rw [he] at hens
    cases hens
    exact ⟨h1, h2⟩
  | retrieveAll _ ih => exact Buffer.RetrieveAll_valid ih.2
  | retrieveAllToStr _ ih => exact Buffer.RetrieveAll_valid ih.2
  | readFd len data errno saveErrno _ hlen hdata hbig hrd ih =>
    exact Buffer.ReadFd_valid ih.1 ih.2 hlen hdata hbig hrd
  | writeFd write saveErrno _ hle ih =>
    exact Buffer.WriteFd_valid write saveErrno ih.1 ih.2 hle

/-! ## The claims -/

/-- C1 (as amended). Every state reachable from a newly constructed `Buffer` by the
public operations used within their documented preconditions, where `Append`,
`EnsureWriteable` and `ReadFd` are used with a length whose grown store length
`writePos + len + 1` does not wrap around in `size_t`, satisfies
`0 ≤ readPos ≤ writePos ≤ store.length` and
`ReadableBytes() + WritableBytes() + PrependableBytes() == store.length`. -/
theorem C1_reachable_invariant (initBuffSize : Nat) (b : Buffer)
    (hinit : initBuffSize ≤ INT_MAX) (h : Reachable initBuffSize b) :
    0 ≤ b.readPos_ ∧ b.readPos_ ≤ b.writePos_ ∧ b.writePos_ ≤ b.buffer_.length ∧
      b.ReadableBytes + b.WritableBytes + b.PrependableBytes = b.buffer_.length := by
  obtain ⟨hi, hr⟩ := Reachable.valid hinit h
  have hR := Buffer.ReadableBytes_eq hi hr
  have hW := Buffer.WritableBytes_eq hi hr
  have hP : b.PrependableBytes = b.readPos_ := rfl
  obtain ⟨i1, i2⟩ := hi
  refine ⟨Nat.zero_le _, i1, i2, ?_⟩
  omega

/-- C1, witness: the theorem applied to the state reached from `Buffer(10)` by
`Append("ABCDEFGH")`, `Retrieve(5)` and an `Append` of six bytes that compacts. -/
theorem C1_reachable_invariant_witness :
    10 ≤ INT_MAX ∧ Reachable 10 bufFGH123456 ∧
    (0 ≤ bufFGH123456.readPos_ ∧ bufFGH123456.readPos_ ≤ bufFGH123456.writePos_ ∧
      bufFGH123456.writePos_ ≤ bufFGH123456.buffer_.length ∧
      bufFGH123456.ReadableBytes + bufFGH123456.WritableBytes +
        bufFGH123456.PrependableBytes = bufFGH123456.buffer_.length) :=
  have h1 : Reachable 10 bufABCDEFGH :=
    Reachable.append ABCDEFGH Reachable.construct (by decide) (by decide)
  have h2 : Reachable 10 bufFGH := Reachable.retrieve 5 h1 (by decide) (by decide)
  have h3 : Reachable 10 bufFGH123456 :=
    Reachable.append [1, 2, 3, 4, 5, 6] h2 (by decide) (by decide)
  ⟨by decide, h3, C1_reachable_invariant 10 bufFGH123456 (by decide) h3⟩

/-- C1, counterexample to the claim as stated: from `Buffer(10)`, `Append("ABCDEFGH")`
and then `EnsureWriteable(2^64 - 5)` both return, and leave `writePos = 8` beyond the
store length `4`: the requested length `8 + (2^64 - 5) + 1` wraps around to `4`. -/
theorem C1_counterexample :
    ∃ b1 b2, (Buffer.new 10).Append ABCDEFGH ABCDEFGH.length = some b1 ∧
      b1.EnsureWriteable 18446744073709551611 = some b2 ∧
      b2.buffer_.length = 4 ∧ b2.writePos_ = 8 ∧ ¬ b2.writePos_ ≤ b2.buffer_.length :=
  ⟨bufABCDEFGH, { buffer_ := [65, 66, 67, 68], readPos_ := 0, writePos_ := 8 },
    by decide, by decide, by decide, by decide, by decide⟩

/-- C2. On a state satisfying the cursor invariant, `Append(B, len(B))` returns, and
its readable region is the old readable region followed by `B`, so `ReadableBytes()`
has grown by exactly `len(B)`, whichever path (room, compaction, growth) is taken.
`Representable` and `NoWrap` say that the store and the payload are objects of one
64-bit address space. -/
theorem C2_append_readable (b : Buffer) (B : List Byte) (hi : b.Inv) (hr : b.Representable)
    (hnw : b.NoWrap B.length) :
    ∃ b1, b.Append B B.length = some b1 ∧ b1.readable = b.readable ++ B ∧
      b1.ReadableBytes = b.ReadableBytes + B.length := by
  obtain ⟨b1, he, hi1, hr1, hrd, -⟩ := Buffer.Append_ok hi hr hnw
  refine ⟨b1, he, hrd, ?_⟩
  have h1 := Buffer.readable_length hi1 hr1
  have h0 := Buffer.readable_length hi hr
  rw [Buffer.ReadableBytes_eq hi1 hr1, Buffer.ReadableBytes_eq hi hr, ← h1, ← h0, hrd,
    List.length_append]

/-- C2, witness: an `Append` of six bytes after `Retrieve(5)` in a store of 10 bytes
(the compaction path). -/
theorem C2_append_readable_witness :
    bufFGH.Inv ∧ bufFGH.Representable ∧ bufFGH.NoWrap [1, 2, 3, 4, 5, 6].length ∧
    ∃ b1, bufFGH.Append [1, 2, 3, 4, 5, 6] [1, 2, 3, 4, 5, 6].length = some b1 ∧
      b1.readable = bufFGH.readable ++ [1, 2, 3, 4, 5, 6] ∧
      b1.ReadableBytes = bufFGH.ReadableBytes + [1, 2, 3, 4, 5, 6].length :=
  ⟨by decide, by decide, by decide,
    C2_append_readable bufFGH [1, 2, 3, 4, 5, 6] (by decide) (by decide) (by decide)⟩

/-- C3 (as amended). Round trip on a state satisfying the cursor invariant: after
`Append(B)` and after the `ReadableBytes()` bytes that were already readable before
it have been retrieved (none for a buffer without unread bytes), the `len(B)` bytes
starting at `Peek()` are exactly `B`, and `Retrieve(len(B))` consumes them, leaving
nothing readable. -/
theorem C3_round_trip (b : Buffer) (B : List Byte) (hi : b.Inv) (hr : b.Representable)
    (hnw : b.NoWrap B.length) :
    ∃ b1 b2 b3, b.Append B B.length = some b1 ∧
      b1.Retrieve b.ReadableBytes = some b2 ∧
      b2.peekN B.length = B ∧
      b2.Retrieve B.length = some b3 ∧
      b3.readPos_ = b2.readPos_ + B.length ∧ b3.ReadableBytes = 0 := by
  obtain ⟨b1, he, hi1, hr1, hrd, -⟩ := Buffer.Append_ok hi hr hnw
  have hl0 := Buffer.readable_length hi hr
  have hl1 := Buffer.readable_length hi1 hr1
  have hR0 := Buffer.ReadableBytes_eq hi hr
  have hR1 := Buffer.ReadableBytes_eq hi1 hr1
  have hlen : b1.writePos_ - b1.readPos_ = (b.writePos_ - b.readPos_) + B.length := by
    rw [← hl1, ← hl0, hrd, List.length_append]
  obtain ⟨j1, j2⟩ := hi1
  have hr1' : b1.buffer_.length < SIZE_MOD := hr1
  -- first retrieval: the old readable bytes
  have hret1 : b1.Retrieve b.ReadableBytes =
      some { b1 with readPos_ := b1.readPos_ + (b.writePos_ - b.readPos_) } := by
    unfold Buffer.Retrieve
    rw [if_pos (by omega), hR0, szAdd_eq (by omega)]
  have hi2 : Buffer.Inv { b1 with readPos_ := b1.readPos_ + (b.writePos_ - b.readPos_) } :=
    ⟨by show b1.readPos_ + _ ≤ b1.writePos_; omega, j2⟩
  have hr2 : Buffer.Representable
      { b1 with readPos_ := b1.readPos_ + (b.writePos_ - b.readPos_) } := hr1
  have hR2 := Buffer.ReadableBytes_eq hi2 hr2
  have hR2' : Buffer.ReadableBytes
      { b1 with readPos_ := b1.readPos_ + (b.writePos_ - b.readPos_) } = B.length := by
    rw [hR2]; show b1.writePos_ - (b1.readPos_ + _) = _; omega
  -- the bytes now at `Peek()`
  have hpeek : Buffer.peekN { b1 with readPos_ := b1.readPos_ + (b.writePos_ - b.readPos_) }
      B.length = B := by
    have h1 : b1.readable = (b1.buffer_.drop b1.readPos_).take (b1.writePos_ - b1.readPos_) :=
      Buffer.readable_eq ⟨j1, j2⟩ hr1
    have h2 : (b1.readable).drop (b.writePos_ - b.readPos_) = B := by
      rw [hrd, ← hl0, List.drop_left]
    rw [h1, List.drop_take, List.drop_drop] at h2
    have h3 : b1.writePos_ - b1.readPos_ - (b.writePos_ - b.readPos_) = B.length := by omega
    rw [h3] at h2
    exact h2
  -- second retrieval: the payload
  have hret2 : Buffer.Retrieve { b1 with readPos_ := b1.readPos_ + (b.writePos_ - b.readPos_) }
      B.length = some { b1 with readPos_ := b1.readPos_ + (b.writePos_ - b.readPos_) + B.length } := by
    unfold Buffer.Retrieve
    rw [if_pos (by omega)]
    show some { b1 with readPos_ := szAdd (b1.readPos_ + (b.writePos_ - b.readPos_)) B.length } = _
    rw [szAdd_eq (by omega)]
  have hi3 : Buffer.Inv
      { b1 with readPos_ := b1.readPos_ + (b.writePos_ - b.readPos_) + B.length } :=
    ⟨by show b1.readPos_ + _ + _ ≤ b1.writePos_; omega, j2⟩
  have hR3 := Buffer.ReadableBytes_eq hi3 hr1
  refine ⟨b1, _, _, he, hret1, hpeek, hret2, rfl, ?_⟩
  rw [hR3]; show b1.writePos_ - (b1.readPos_ + _ + _) = 0; omega

/-- C3, witness: `Append` of "XY" (88, 89) to the buffer holding "ABCDEFGH". -/
theorem C3_round_trip_witness :
    bufABCDEFGH.Inv ∧ bufABCDEFGH.Representable ∧ bufABCDEFGH.NoWrap [88, 89].length ∧
    ∃ b1 b2 b3, bufABCDEFGH.Append [88, 89] [88, 89].length = some b1 ∧
      b1.Retrieve bufABCDEFGH.ReadableBytes = some b2 ∧
      b2.peekN [88, 89].length = [88, 89] ∧
      b2.Retrieve [88, 89].length = some b3 ∧
      b3.readPos_ = b2.readPos_ + [88, 89].length ∧ b3.ReadableBytes = 0 :=
  ⟨by decide, by decide, by decide,
    C3_round_trip bufABCDEFGH [88, 89] (by decide) (by decide) (by decide)⟩

/-- C3, counterexample to the claim as stated: the buffer holding the unread bytes
"ABCDEFGH" satisfies the cursor invariant; after `Append("XY")` the two bytes at
`Peek()`, which `Retrieve(2)` consumes, are "AB" and not "XY". -/
theorem C3_counterexample :
    bufABCDEFGH.Inv ∧
    ∃ b1 b2, bufABCDEFGH.Append [88, 89] [88, 89].length = some b1 ∧
      b1.peekN [88, 89].length = [65, 66] ∧
      b1.Retrieve [88, 89].length = some b2 ∧
      b1.peekN [88, 89].length ≠ [88, 89] :=
  ⟨by decide,
    { buffer_ := [65, 66, 67, 68, 69, 70, 71, 72, 88, 89], readPos_ := 0, writePos_ := 10 },
    { buffer_ := [65, 66, 67, 68, 69, 70, 71, 72, 88, 89], readPos_ := 2, writePos_ := 10 },
    by decide, by decide, by decide, by decide⟩

/-- C4 (the code at the failing input). A newly constructed `Buffer(10)` satisfies the
cursor invariant, and `2^64 - 1` exceeds its writable plus prependable bytes, so
`EnsureWriteable(2^64 - 1)` takes the growth branch of `MakeSpace_`. The requested
length `0 + (2^64 - 1) + 1` wraps around to `0`: the store is resized to no bytes,
`WritableBytes()` is then `0`, and the assertion `WritableBytes() >= len` at the end of
`EnsureWriteable` fails. -/
theorem C4_assertion_fails :
    (Buffer.new 10).Inv ∧
    (Buffer.new 10).WritableBytes + (Buffer.new 10).PrependableBytes <
      18446744073709551615 ∧
    (Buffer.new 10).MakeSpace_ 18446744073709551615 =
      some { buffer_ := [], readPos_ := 0, writePos_ := 0 } ∧
    Buffer.WritableBytes { buffer_ := [], readPos_ := 0, writePos_ := 0 } = 0 ∧
    (Buffer.new 10).EnsureWriteable 18446744073709551615 = none :=
  ⟨by decide, by decide, by decide, by decide, by decide⟩

/-- C5 (as amended). Growth path, on a state satisfying the cursor invariant, for
every `len` with `WritableBytes() + PrependableBytes() < len` whose requested length
`writePos + len + 1` is at most `max_size() = 2^63 - 1`, the longest store the vector
accepts: making space for `len` sets the store length to exactly `writePos + len + 1`,
leaves both cursors unchanged and leaves every byte of the old store at its offset;
and after `Append` of a payload of `len` bytes the store holds at least
`writePos + len` bytes, `readPos` is unchanged and the old readable bytes are still
the bytes at `Peek()`. -/
theorem C5_growth (b : Buffer) (len : Nat) (hi : b.Inv) (hr : b.Representable)
    (hlt : b.WritableBytes + b.PrependableBytes < len)
    (hacc : b.writePos_ + len + 1 ≤ MAX_SIZE) :
    (∃ b1, b.MakeSpace_ len = some b1 ∧ b1.buffer_.length = b.writePos_ + len + 1 ∧
      b1.readPos_ = b.readPos_ ∧ b1.writePos_ = b.writePos_ ∧
      b1.buffer_.take b.buffer_.length = b.buffer_) ∧
    (∀ B : List Byte, B.length = len →
      ∃ b2, b.Append B len = some b2 ∧ b.writePos_ + len ≤ b2.buffer_.length ∧
        b2.readPos_ = b.readPos_ ∧ b2.peekN b.ReadableBytes = b.readable) := by
  have hfit : b.GrowFits len := by
    unfold Buffer.GrowFits SIZE_MOD
    unfold MAX_SIZE at hacc
    omega
  obtain ⟨hi1, hr1, hlen1, hrd1⟩ := Buffer.grown_props hi hr hlt hfit
  refine ⟨⟨b.grown len, Buffer.MakeSpace__grow hi hr hlt hfit, hlen1, rfl, rfl, ?_⟩, ?_⟩
  · show (b.buffer_ ++ _).take b.buffer_.length = b.buffer_
    exact List.take_left _ _
  · intro B hB
    subst hB
    have hroom : (b.grown B.length).writePos_ + B.length ≤ (b.grown B.length).buffer_.length := by
      rw [hlen1]; show b.writePos_ + _ ≤ _; omega
    obtain ⟨hi2, hr2, hlen2, hrd2⟩ := Buffer.written_props hi1 hr1 hroom
    refine ⟨(b.grown B.length).written B,
      Buffer.Append_of_ensure (Buffer.EnsureWriteable_grow hi hr hlt hfit) hr1 hroom, ?_, rfl, ?_⟩
    · rw [hlen2, hlen1]; omega
    · have hl0 := Buffer.readable_length hi hr
      have e : ((b.grown B.length).written B).peekN b.ReadableBytes =
          (((b.grown B.length).written B).readable).take b.ReadableBytes := by
        unfold Buffer.readable Buffer.peekN
        rw [List.take_take, Buffer.ReadableBytes_eq hi2 hr2, Buffer.ReadableBytes_eq hi hr]
        congr 1
        have : ((b.grown B.length).written B).writePos_ = b.writePos_ + B.length := rfl
        have : ((b.grown B.length).written B).readPos_ = b.readPos_ := rfl
        omega
      rw [e, hrd2, hrd1, Buffer.ReadableBytes_eq hi hr, ← hl0, List.take_left]

/-- C5, witness: growth from the buffer holding "ABCDEFGH" (two writable bytes, nothing
prependable) for `len = 3`. -/
theorem C5_growth_witness :
    bufABCDEFGH.Inv ∧ bufABCDEFGH.Representable ∧
    bufABCDEFGH.WritableBytes + bufABCDEFGH.PrependableBytes < 3 ∧
    bufABCDEFGH.writePos_ + 3 + 1 ≤ MAX_SIZE ∧
    ((∃ b1, bufABCDEFGH.MakeSpace_ 3 = some b1 ∧
        b1.buffer_.length = bufABCDEFGH.writePos_ + 3 + 1 ∧
        b1.readPos_ = bufABCDEFGH.readPos_ ∧ b1.writePos_ = bufABCDEFGH.writePos_ ∧
        b1.buffer_.take bufABCDEFGH.buffer_.length = bufABCDEFGH.buffer_) ∧
      (∀ B : List Byte, B.length = 3 →
        ∃ b2, bufABCDEFGH.Append B 3 = some b2 ∧
          bufABCDEFGH.writePos_ + 3 ≤ b2.buffer_.length ∧
          b2.readPos_ = bufABCDEFGH.readPos_ ∧
          b2.peekN bufABCDEFGH.ReadableBytes = bufABCDEFGH.readable)) :=
  ⟨by decide, by decide, by decide, by decide,
    C5_growth bufABCDEFGH 3 (by decide) (by decide) (by decide) (by decide)⟩

/-- C5, counterexample to the claim as stated: the buffer holding "ABCDEFGH" satisfies
the cursor invariant and `len = 2^64 - 5` exceeds its writable plus prependable bytes,
but making space for it sets the store length to `4`, not to `8 + (2^64 - 5) + 1`, and
the bytes at offsets 4 to 9 of the old store are gone. -/
theorem C5_counterexample :
    bufABCDEFGH.Inv ∧
    bufABCDEFGH.WritableBytes + bufABCDEFGH.PrependableBytes < 18446744073709551611 ∧
    ∃ b1, bufABCDEFGH.MakeSpace_ 18446744073709551611 = some b1 ∧
      b1.buffer_.length = 4 ∧
      b1.buffer_.length ≠ bufABCDEFGH.writePos_ + 18446744073709551611 + 1 ∧
      b1.buffer_.take bufABCDEFGH.buffer_.length ≠ bufABCDEFGH.buffer_ :=
  ⟨by decide, by decide, { buffer_ := [65, 66, 67, 68], readPos_ := 0, writePos_ := 8 },
    by decide, by decide, by decide, by decide⟩

/-- C6. Compaction path, on a state satisfying the cursor invariant, for every `len`
with `WritableBytes() < len <= WritableBytes() + PrependableBytes()`: making space
(`MakeSpace_`, as called by `EnsureWriteable`) sets `readPos = 0` and
`writePos = ` old `ReadableBytes()`, the bytes at offsets `[0, old ReadableBytes())`
are the old readable region in the same order, and the store length is unchanged,
also after the `Append` of a payload of `len` bytes. -/
theorem C6_compaction (b : Buffer) (len : Nat) (hi : b.Inv) (hr : b.Representable)
    (h1 : b.WritableBytes < len) (h2 : len ≤ b.WritableBytes + b.PrependableBytes) :
    (∃ b1, b.MakeSpace_ len = some b1 ∧ b.EnsureWriteable len = some b1 ∧
      b1.readPos_ = 0 ∧ b1.writePos_ = b.ReadableBytes ∧
      b1.buffer_.take b.ReadableBytes = b.readable ∧
      b1.buffer_.length = b.buffer_.length) ∧
    (∀ B : List Byte, B.length = len →
      ∃ b2, b.Append B len = some b2 ∧ b2.buffer_.length = b.buffer_.length) := by
  obtain ⟨hi1, hr1, hlen1, hrd1⟩ := Buffer.compacted_props hi hr
  have hR := Buffer.ReadableBytes_eq hi hr
  have hW := Buffer.WritableBytes_eq hi hr
  have hl0 := Buffer.readable_length hi hr
  have hens := Buffer.EnsureWriteable_compact hi hr h1 h2
  refine ⟨⟨b.compacted, Buffer.MakeSpace__compact hi hr h2, hens, rfl, hR.symm, ?_, hlen1⟩, ?_⟩
  · show (b.readable ++ _).take b.ReadableBytes = b.readable
    rw [hR, ← hl0, List.take_left]
  · intro B hB
    subst hB
    have hP : b.PrependableBytes = b.readPos_ := rfl
    have hroom : b.compacted.writePos_ + B.length ≤ b.compacted.buffer_.length := by
      rw [hlen1]; show b.writePos_ - b.readPos_ + _ ≤ _
      have := hi.1; have := hi.2
      omega
    obtain ⟨-, -, hlen2, -⟩ := Buffer.written_props hi1 hr1 hroom
    exact ⟨b.compacted.written B, Buffer.Append_of_ensure hens hr1 hroom, by rw [hlen2, hlen1]⟩

/-- C6, witness: six bytes appended to the buffer whose readable region is "FGH"
(two writable and five prependable bytes). -/
theorem C6_compaction_witness :
    bufFGH.Inv ∧ bufFGH.Representable ∧ bufFGH.WritableBytes < 6 ∧
    6 ≤ bufFGH.WritableBytes + bufFGH.PrependableBytes ∧
    ((∃ b1, bufFGH.MakeSpace_ 6 = some b1 ∧ bufFGH.EnsureWriteable 6 = some b1 ∧
        b1.readPos_ = 0 ∧ b1.writePos_ = bufFGH.ReadableBytes ∧
        b1.buffer_.take bufFGH.ReadableBytes = bufFGH.readable ∧
        b1.buffer_.length = bufFGH.buffer_.length) ∧
      (∀ B : List Byte, B.length = 6 →
        ∃ b2, bufFGH.Append B 6 = some b2 ∧ b2.buffer_.length = bufFGH.buffer_.length)) :=
  ⟨by decide, by decide, by decide, by decide,
    C6_compaction bufFGH 6 (by decide) (by decide) (by decide) (by decide)⟩

/-- The compacting `Append` of any six bytes to the buffer whose readable region is
"FGH", evaluated. -/
theorem bufFGH_append_six (x1 x2 x3 x4 x5 x6 : Byte) :
    bufFGH.Append [x1, x2, x3, x4, x5, x6] 6 =
      some { buffer_ := [70, 71, 72, x1, x2, x3, x4, x5, x6, 0], readPos_ := 0, writePos_ := 9 } := by
  have h1 : bufFGH.WritableBytes < 6 := by decide
  have h2 : 6 ≤ bufFGH.WritableBytes + bufFGH.PrependableBytes := by decide
  have h3 : bufFGH.compacted.writePos_ + 6 ≤ bufFGH.compacted.buffer_.length := by decide
  have hens : bufFGH.EnsureWriteable [x1, x2, x3, x4, x5, x6].length = some bufFGH.compacted :=
    Buffer.EnsureWriteable_compact (by decide) (by decide) h1 h2
  have hc : bufFGH.compacted =
      { buffer_ := [70, 71, 72, 68, 69, 70, 71, 72, 0, 0], readPos_ := 0, writePos_ := 3 } := by
    decide
  have happ := Buffer.Append_of_ensure hens (by decide) h3
  rw [hc] at happ
  exact happ

/-- C7. The scenario: a `Buffer` of initial capacity 10, after `Append` of the 8 bytes
"ABCDEFGH", has `WritableBytes() == 2`; after `Retrieve(5)` it has
`ReadableBytes() == 3` and `PrependableBytes() == 5`; after `Append` of any 6 further
bytes the store length is still 10, `readPos` is 0 and the readable region is the 9
bytes "FGH" followed by the 6 new bytes. -/
theorem C7_scenario :
    ∃ b1 b2, (Buffer.new 10).Append ABCDEFGH 8 = some b1 ∧ b1.WritableBytes = 2 ∧
      b1.Retrieve 5 = some b2 ∧ b2.ReadableBytes = 3 ∧ b2.PrependableBytes = 5 ∧
      ∀ x1 x2 x3 x4 x5 x6 : Byte,
        ∃ b3, b2.Append [x1, x2, x3, x4, x5, x6] 6 = some b3 ∧
          b3.buffer_.length = 10 ∧ b3.readPos_ = 0 ∧
          b3.readable = [70, 71, 72, x1, x2, x3, x4, x5, x6] ∧ b3.ReadableBytes = 9 := by
  refine ⟨bufABCDEFGH, bufFGH, by decide, by decide, by decide, by decide, by decide, ?_⟩
  intro x1 x2 x3 x4 x5 x6
  have h9 : szSub 9 0 = 9 := by decide
  refine ⟨_, bufFGH_append_six x1 x2 x3 x4 x5 x6, rfl, rfl, ?_, h9⟩
  show List.take (szSub 9 0) (List.drop 0 [70, 71, 72, x1, x2, x3, x4, x5, x6, 0]) = _
  rw [h9]
  rfl

/-- C8. On a state satisfying the cursor invariant, for every `len <= ReadableBytes()`,
`Retrieve(len)` returns, advances `readPos` by exactly `len` and changes nothing else
(`writePos`, the store length and the store contents), so the readable region loses
its first `len` bytes and `PrependableBytes()` grows by `len`. -/
theorem C8_retrieve (b : Buffer) (len : Nat) (hi : b.Inv) (hr : b.Representable)
    (h : len ≤ b.ReadableBytes) :
    ∃ b1, b.Retrieve len = some b1 ∧ b1.readPos_ = b.readPos_ + len ∧
      b1.writePos_ = b.writePos_ ∧ b1.buffer_ = b.buffer_ ∧
      b1.readable = b.readable.drop len ∧
      b1.PrependableBytes = b.PrependableBytes + len := by
  have hR := Buffer.ReadableBytes_eq hi hr
  obtain ⟨i1, i2⟩ := hi
  have hr' : b.buffer_.length < SIZE_MOD := hr
  have hret : b.Retrieve len = some { b with readPos_ := b.readPos_ + len } := by
    unfold Buffer.Retrieve
    rw [if_pos h, szAdd_eq (by omega)]
  have hi1 : Buffer.Inv { b with readPos_ := b.readPos_ + len } :=
    ⟨by show b.readPos_ + len ≤ b.writePos_; omega, i2⟩
  refine ⟨_, hret, rfl, rfl, rfl, ?_, rfl⟩
  rw [Buffer.readable_eq hi1 hr, Buffer.readable_eq ⟨i1, i2⟩ hr, List.drop_take, List.drop_drop]
  show (b.buffer_.drop (b.readPos_ + len)).take (b.writePos_ - (b.readPos_ + len)) = _
  congr 1
  omega

/-- C8, witness: `Retrieve(5)` on the buffer holding "ABCDEFGH". -/
theorem C8_retrieve_witness :
    bufABCDEFGH.Inv ∧ bufABCDEFGH.Representable ∧ 5 ≤ bufABCDEFGH.ReadableBytes ∧
    ∃ b1, bufABCDEFGH.Retrieve 5 = some b1 ∧ b1.readPos_ = bufABCDEFGH.readPos_ + 5 ∧
      b1.writePos_ = bufABCDEFGH.writePos_ ∧ b1.buffer_ = bufABCDEFGH.buffer_ ∧
      b1.readable = bufABCDEFGH.readable.drop 5 ∧
      b1.PrependableBytes = bufABCDEFGH.PrependableBytes + 5 :=
  ⟨by decide, by decide, by decide,
    C8_retrieve bufABCDEFGH 5 (by decide) (by decide) (by decide)⟩

/-- C9 (as amended). `Retrieve(len)` aborts if and only if `len > ReadableBytes()`,
and otherwise sets `readPos` to `readPos + len` (in `size_t`) without clamping.
`HasWritten(len)` makes no bounds check and never aborts: it sets `writePos` to
`writePos + len` modulo `2^64` and changes nothing else. On a state satisfying the cursor invariant, with
`len > WritableBytes()` and `writePos + len < 2^64` it leaves `writePos` beyond the
store length, and with `len < 2^64 <= writePos + len` the sum wraps around and it
leaves `writePos` below its old value. -/
theorem C9_contract_violations (b : Buffer) (len : Nat) :
    (b.Retrieve len = none ↔ b.ReadableBytes < len) ∧
    (len ≤ b.ReadableBytes →
      b.Retrieve len = some { b with readPos_ := szAdd b.readPos_ len }) ∧
    b.HasWritten len = { b with writePos_ := (b.writePos_ + len) % SIZE_MOD } ∧
    (b.Inv → b.Representable → b.WritableBytes < len → b.writePos_ + len < SIZE_MOD →
      (b.HasWritten len).buffer_.length < (b.HasWritten len).writePos_) ∧
    (b.Inv → b.Representable → len < SIZE_MOD → SIZE_MOD ≤ b.writePos_ + len →
      (b.HasWritten len).writePos_ < b.writePos_) := by
  refine ⟨?_, ?_, rfl, ?_, ?_⟩
  · unfold Buffer.Retrieve
    by_cases c : len ≤ b.ReadableBytes
    · rw [if_pos c]
      constructor
      · intro h; cases h
      · intro h; omega
    · rw [if_neg c]
      constructor
      · intro _; omega
      · intro _; rfl
  · intro c
    unfold Buffer.Retrieve
    rw [if_pos c]
  · intro hi hr hlt hfit
    have hW := Buffer.WritableBytes_eq hi hr
    show b.buffer_.length < szAdd b.writePos_ len
    rw [szAdd_eq hfit]
    have := hi.2
    omega
  · intro hi hr hlen hwrap
    have hr2 : b.buffer_.length < SIZE_MOD := hr
    have := hi.2
    show (b.writePos_ + len) % SIZE_MOD < b.writePos_
    unfold SIZE_MOD at *
    omega

/-- C9, witness: on the buffer holding "ABCDEFGH" (8 readable, 2 writable bytes),
`Retrieve(9)` aborts, `HasWritten(5)` returns with `writePos` beyond the store, and
`HasWritten(2^64 - 1)` returns with `writePos` 7, below its old value 8. -/
theorem C9_contract_violations_witness :
    bufABCDEFGH.ReadableBytes < 9 ∧ bufABCDEFGH.Retrieve 9 = none ∧
    bufABCDEFGH.WritableBytes < 5 ∧
    (bufABCDEFGH.HasWritten 5).buffer_.length < (bufABCDEFGH.HasWritten 5).writePos_ ∧
    (bufABCDEFGH.HasWritten 18446744073709551615).writePos_ < bufABCDEFGH.writePos_ :=
  ⟨by decide, (C9_contract_violations bufABCDEFGH 9).1.mpr (by decide), by decide,
    (C9_contract_violations bufABCDEFGH 5).2.2.2.1 (by decide) (by decide) (by decide)
      (by decide),
    (C9_contract_violations bufABCDEFGH 18446744073709551615).2.2.2.2 (by decide)
      (by decide) (by decide) (by decide)⟩

/-- C9, counterexample to the claim as stated: the buffer holding "ABCDEFGH" (store
length 10, `writePos = 8`) satisfies the cursor invariant and has 2 writable bytes;
`HasWritten(5)` does not abort but returns with `writePos = 13`, beyond the store
length 10. -/
theorem C9_counterexample :
    bufABCDEFGH.Inv ∧ bufABCDEFGH.WritableBytes < 5 ∧
    bufABCDEFGH.HasWritten 5 =
      { buffer_ := [65, 66, 67, 68, 69, 70, 71, 72, 0, 0], readPos_ := 0, writePos_ := 13 } ∧
    (bufABCDEFGH.HasWritten 5).buffer_.length < (bufABCDEFGH.HasWritten 5).writePos_ :=
  ⟨by decide, by decide, by decide, by decide⟩

/-- C10. On every state with a non-empty store, `RetrieveAll()` sets `readPos` and
`writePos` to 0, makes every byte of the store zero and leaves the store length
unchanged, so afterwards `ReadableBytes() == 0`, `PrependableBytes() == 0` and
`WritableBytes()` is the store length. -/
theorem C10_retrieve_all (b : Buffer) (hne : b.buffer_ ≠ []) (hr : b.Representable) :
    b.RetrieveAll.readPos_ = 0 ∧ b.RetrieveAll.writePos_ = 0 ∧
    (∀ x ∈ b.RetrieveAll.buffer_, x = 0) ∧
    b.RetrieveAll.buffer_.length = b.buffer_.length ∧
    b.RetrieveAll.ReadableBytes = 0 ∧ b.RetrieveAll.PrependableBytes = 0 ∧
    b.RetrieveAll.WritableBytes = b.buffer_.length := by
  have hlen : b.RetrieveAll.buffer_.length = b.buffer_.length := by
    simp [Buffer.RetrieveAll]
  have hr' : b.buffer_.length < SIZE_MOD := hr
  have _hpos : 0 < b.buffer_.length := List.length_pos.mpr hne
  refine ⟨rfl, rfl, ?_, hlen, ?_, rfl, ?_⟩
  · intro x hx
    exact List.eq_of_mem_replicate hx
  · show szSub 0 0 = 0
    exact szSub_eq (Nat.le_refl _) (by unfold SIZE_MOD; omega)
  · show szSub b.RetrieveAll.buffer_.length 0 = _
    rw [hlen]
    exact szSub_eq (Nat.zero_le _) hr'

/-- C10, witness: `RetrieveAll()` on the buffer holding "ABCDEFGH". -/
theorem C10_retrieve_all_witness :
    bufABCDEFGH.buffer_ ≠ [] ∧ bufABCDEFGH.Representable ∧
    (bufABCDEFGH.RetrieveAll.readPos_ = 0 ∧ bufABCDEFGH.RetrieveAll.writePos_ = 0 ∧
      (∀ x ∈ bufABCDEFGH.RetrieveAll.buffer_, x = 0) ∧
      bufABCDEFGH.RetrieveAll.buffer_.length = bufABCDEFGH.buffer_.length ∧
      bufABCDEFGH.RetrieveAll.ReadableBytes = 0 ∧
      bufABCDEFGH.RetrieveAll.PrependableBytes = 0 ∧
      bufABCDEFGH.RetrieveAll.WritableBytes = bufABCDEFGH.buffer_.length) :=
  ⟨by decide, by decide, C10_retrieve_all bufABCDEFGH (by decide) (by decide)⟩

/-! ## Lemmas on the descriptor operations and on sequences of operations -/

theorem copyIn_getElem?_outside (v : List Byte) (dst : Nat) (s : List Byte) (i : Nat)
    (h : i < dst ∨ dst + s.length ≤ i) : (copyIn v dst s)[i]? = v[i]? := by
  induction s generalizing v dst with
  | nil => rfl
  | cons x xs ih =>
    simp only [List.length_cons] at h
    rw [copyIn, ih _ _ (by omega), List.getElem?_set, if_neg (by omega)]

theorem Buffer.Retrieve_ok {b : Buffer} {len : Nat} (hi : b.Inv) (hr : b.Representable)
    (h : len ≤ b.ReadableBytes) :
    ∃ b1, b.Retrieve len = some b1 ∧ b1 = { b with readPos_ := b.readPos_ + len } ∧
      b1.Inv ∧ b1.Representable ∧ b1.readable = b.readable.drop len := by
  have hR := Buffer.ReadableBytes_eq hi hr
  obtain ⟨i1, i2⟩ := hi
  have hr' : b.buffer_.length < SIZE_MOD := hr
  have hret : b.Retrieve len = some { b with readPos_ := b.readPos_ + len } := by
    unfold Buffer.Retrieve
    rw [if_pos h, szAdd_eq (by omega)]
  have hi1 : Buffer.Inv { b with readPos_ := b.readPos_ + len } :=
    ⟨by show b.readPos_ + len ≤ b.writePos_; omega, i2⟩
  refine ⟨_, hret, rfl, hi1, hr, ?_⟩
  rw [Buffer.readable_eq hi1 hr, Buffer.readable_eq ⟨i1, i2⟩ hr, List.drop_take, List.drop_drop]
  show (b.buffer_.drop (b.readPos_ + len)).take (b.writePos_ - (b.readPos_ + len)) = _
  congr 1
  omega

/-- `Append` on a valid state, with the store length it leaves: unchanged when the
payload fits after reclaiming the prependable bytes, `writePos_ + len + 1` else. -/
theorem Buffer.Append_full {b : Buffer} {B : List Byte} (hi : b.Inv)
    (hr : b.Representable) (hnw : b.NoWrap B.length) :
    ∃ b2, b.Append B B.length = some b2 ∧ b2.Inv ∧ b2.Representable ∧
      b2.readable = b.readable ++ B ∧
      (B.length ≤ b.WritableBytes + b.PrependableBytes →
        b2.buffer_.length = b.buffer_.length) ∧
      (b.WritableBytes + b.PrependableBytes < B.length →
        b2.buffer_.length = b.writePos_ + B.length + 1) := by
  have hW := Buffer.WritableBytes_eq hi hr
  have hP : b.PrependableBytes = b.readPos_ := rfl
  have hi0 := hi
  obtain ⟨i1, i2⟩ := hi
  by_cases c1 : B.length ≤ b.WritableBytes
  · have hroom : b.writePos_ + B.length ≤ b.buffer_.length := by omega
    obtain ⟨h1, h2, h3, h4⟩ := Buffer.written_props hi0 hr hroom
    exact ⟨b.written B, Buffer.Append_of_ensure (Buffer.EnsureWriteable_fits c1) hr hroom,
      h1, h2, h4, fun _ => h3, fun h => by omega⟩
  · by_cases c2 : B.length ≤ b.WritableBytes + b.PrependableBytes
    · obtain ⟨hi', hr', hlen, hrd⟩ := Buffer.compacted_props hi0 hr
      have hw' : b.compacted.writePos_ = b.writePos_ - b.readPos_ := rfl
      have hroom : b.compacted.writePos_ + B.length ≤ b.compacted.buffer_.length := by omega
      obtain ⟨h1, h2, h3, h4⟩ := Buffer.written_props hi' hr' hroom
      exact ⟨b.compacted.written B,
        Buffer.Append_of_ensure (Buffer.EnsureWriteable_compact hi0 hr (by omega) c2) hr' hroom,
        h1, h2, by rw [h4, hrd], fun _ => by rw [h3, hlen], fun h => by omega⟩
    · have hlt : b.WritableBytes + b.PrependableBytes < B.length := by omega
      obtain ⟨hi', hr', hlen, hrd⟩ := Buffer.grown_props hi0 hr hlt (hnw hlt)
      have hw' : (b.grown B.length).writePos_ = b.writePos_ := rfl
      have hroom : (b.grown B.length).writePos_ + B.length ≤
          (b.grown B.length).buffer_.length := by omega
      obtain ⟨h1, h2, h3, h4⟩ := Buffer.written_props hi' hr' hroom
      exact ⟨(b.grown B.length).written B,
        Buffer.Append_of_ensure (Buffer.EnsureWriteable_grow hi0 hr hlt (hnw hlt)) hr' hroom,
        h1, h2, by rw [h4, hrd], fun h => by omega, fun _ => by rw [h3, hlen]⟩

/-- `WriteFd` with a result between 0 and `ReadableBytes()`, evaluated. -/
theorem Buffer.WriteFd_ok {b : Buffer} (write : List Byte → Int × Int) (saveErrno : Int)
    (hi : b.Inv) (hr : b.Representable) (h0 : 0 ≤ (write b.readable).1)
    (hn : (write b.readable).1 ≤ (b.ReadableBytes : Int)) :
    b.WriteFd write saveErrno =
      { buf := { b with readPos_ := b.readPos_ + (write b.readable).1.toNat },
        ret := (write b.readable).1, saveErrno := saveErrno } := by
  have hR := Buffer.ReadableBytes_eq hi hr
  obtain ⟨i1, i2⟩ := hi
  have hr' : b.buffer_.length < SIZE_MOD := hr
  unfold SIZE_MOD at hr'
  have hts := @toSize_eq (write b.readable).1 h0 (by unfold SIZE_MOD; omega)
  have hadd : szAdd b.readPos_ (write b.readable).1.toNat =
      b.readPos_ + (write b.readable).1.toNat := szAdd_eq (by unfold SIZE_MOD; omega)
  have e : b.peekN b.ReadableBytes = b.readable := rfl
  unfold Buffer.WriteFd
  simp only [e]
  rw [if_neg (by omega), hts, hadd]

/-- `ReadFd` with a result between 0 and the writable bytes, evaluated. -/
theorem Buffer.ReadFd_inplace {b : Buffer} (n : Int) (data : List Byte) (errno saveErrno : Int)
    (hi : b.Inv) (hr : b.Representable) (h0 : 0 ≤ n) (hn : n ≤ (b.WritableBytes : Int)) :
    b.ReadFd n data errno saveErrno = some
      { buf := { buffer_ := copyIn b.buffer_ b.writePos_ (data.take b.WritableBytes),
                 readPos_ := b.readPos_,
                 writePos_ := b.writePos_ + n.toNat },
        ret := n, saveErrno := saveErrno } := by
  have hW := Buffer.WritableBytes_eq hi hr
  obtain ⟨i1, i2⟩ := hi
  have hr' : b.buffer_.length < SIZE_MOD := hr
  unfold SIZE_MOD at hr'
  have hts := @toSize_eq n h0 (by unfold SIZE_MOD; omega)
  have hadd : szAdd b.writePos_ n.toNat = b.writePos_ + n.toNat :=
    szAdd_eq (by unfold SIZE_MOD; omega)
  unfold Buffer.ReadFd
  simp only
  rw [if_neg (by omega), hts, if_pos (by omega), hadd]

/-- The store after the system call of `ReadFd` has filled the whole writable region
and `writePos_` has been set to the store length. -/
theorem Buffer.written_tail {b : Buffer} {data : List Byte} (hi : b.Inv)
    (hr : b.Representable) (hd : b.WritableBytes ≤ data.length) :
    ({ buffer_ := copyIn b.buffer_ b.writePos_ (data.take b.WritableBytes),
       readPos_ := b.readPos_,
       writePos_ := (copyIn b.buffer_ b.writePos_ (data.take b.WritableBytes)).length } : Buffer) =
      b.written (data.take b.WritableBytes) := by
  have hW := Buffer.WritableBytes_eq hi hr
  obtain ⟨i1, i2⟩ := hi
  have hl : (data.take b.WritableBytes).length = b.WritableBytes := by
    rw [List.length_take]; omega
  unfold Buffer.written
  rw [copyIn_length, copyIn_eq _ _ _ (by rw [hl]; omega), hl]
  congr 1
  omega

/-- `ReadFd` with a result above the writable bytes: the excess is appended to the
buffer whose writable region the system call has filled. -/
theorem Buffer.ReadFd_overflow {b : Buffer} (n : Int) (data : List Byte)
    (errno saveErrno : Int) (hi : b.Inv) (hr : b.Representable)
    (hfit : b.buffer_.length + SCRATCH_SIZE + 1 < SIZE_MOD)
    (hw : (b.WritableBytes : Int) < n)
    (hn : n ≤ (b.WritableBytes : Int) + (SCRATCH_SIZE : Int))
    (hd : (data.length : Int) = n) :
    ∃ b2, b.ReadFd n data errno saveErrno =
        some { buf := b2, ret := n, saveErrno := saveErrno } ∧
      b2.Inv ∧ b2.Representable ∧ b2.readable = b.readable ++ data ∧
      (data.length - b.WritableBytes ≤ b.PrependableBytes →
        b2.buffer_.length = b.buffer_.length) ∧
      (b.PrependableBytes < data.length - b.WritableBytes →
        b2.buffer_.length = b.buffer_.length + (data.length - b.WritableBytes) + 1) := by
  have hW := Buffer.WritableBytes_eq hi hr
  have hi0 := hi
  obtain ⟨i1, i2⟩ := hi
  have hr' : b.buffer_.length < SIZE_MOD := hr
  unfold SCRATCH_SIZE at hn hfit
  have hts := @toSize_eq n (by omega) (by omega)
  have hdl : (data.take b.WritableBytes).length = b.WritableBytes := by
    rw [List.length_take]; omega
  have hroom : b.writePos_ + (data.take b.WritableBytes).length ≤ b.buffer_.length := by
    rw [hdl]; omega
  obtain ⟨hi1, hr1, hlen1, hrd1⟩ := Buffer.written_props hi0 hr hroom
  have hw1 : (b.written (data.take b.WritableBytes)).writePos_ = b.buffer_.length := by
    show b.writePos_ + (data.take b.WritableBytes).length = _
    rw [hdl]; omega
  have hW1 : (b.written (data.take b.WritableBytes)).WritableBytes = 0 := by
    rw [Buffer.WritableBytes_eq hi1 hr1, hlen1, hw1, Nat.sub_self]
  have hP1 : (b.written (data.take b.WritableBytes)).PrependableBytes = b.readPos_ := rfl
  have hP : b.PrependableBytes = b.readPos_ := rfl
  have hnw : (b.written (data.take b.WritableBytes)).NoWrap
      (data.drop b.WritableBytes).length := by
    intro _
    show (b.written (data.take b.WritableBytes)).writePos_ + _ + 1 < SIZE_MOD
    rw [hw1, List.length_drop]
    omega
  obtain ⟨b2, he, hi2, hr2, hrd2, hl1, hl2⟩ := Buffer.Append_full hi1 hr1 hnw
  have hsub : szSub n.toNat b.WritableBytes = (data.drop b.WritableBytes).length := by
    rw [szSub_eq (by omega) (by omega), List.length_drop]
    omega
  refine ⟨b2, ?_, hi2, hr2, ?_, ?_, ?_⟩
  · unfold Buffer.ReadFd
    simp only
    rw [if_neg (by omega), hts, if_neg (by omega), hsub,
      Buffer.written_tail hi0 hr (by omega), he]
    rfl
  · rw [hrd2, hrd1, List.append_assoc, List.take_append_drop]
  · intro h
    rw [hl1 (by rw [hW1, hP1, List.length_drop]; omega), hlen1]
  · intro h
    rw [hl2 (by rw [hW1, hP1, List.length_drop]; omega), hw1, List.length_drop]

theorem Buffer.RetrieveAll_readable (b : Buffer) :
    b.RetrieveAll.ReadableBytes = 0 ∧ b.RetrieveAll.readable = [] := by
  have h0 : b.RetrieveAll.ReadableBytes = 0 := by
    show szSub 0 0 = 0
    decide
  refine ⟨h0, ?_⟩
  unfold Buffer.readable Buffer.peekN
  rw [h0, List.take_zero]

theorem Buffer.new_readable (initBuffSize : Nat) : (Buffer.new initBuffSize).readable = [] := by
  have h0 : (Buffer.new initBuffSize).ReadableBytes = 0 := by
    show szSub 0 0 = 0
    decide
  unfold Buffer.readable Buffer.peekN
  rw [h0, List.take_zero]

theorem Buffer.Accepted.noWrap {b : Buffer} {len : Nat} (h : b.Accepted len) :
    b.NoWrap len := by
  intro hlt
  have := h hlt
  unfold Buffer.GrowFits
  unfold MAX_SIZE at this
  unfold SIZE_MOD
  omega

/-- One operation of the FIFO view, used under its condition, returns a valid state
whose readable region is the abstract queue after the same operation. -/
theorem QueueOp.step_refines {op : QueueOp} {b : Buffer} (hi : b.Inv) (hr : b.Representable)
    (hp : op.pre b) :
    ∃ b1, op.run b = some b1 ∧ b1.Inv ∧ b1.Representable ∧
      b1.readable = op.abstractStep b.readable := by
  cases op with
  | Append B =>
    obtain ⟨b2, he, h1, h2, h3, -⟩ := Buffer.Append_ok hi hr (Buffer.Accepted.noWrap hp)
    exact ⟨b2, he, h1, h2, h3⟩
  | Retrieve len =>
    obtain ⟨b1, he, -, h1, h2, h3⟩ := Buffer.Retrieve_ok hi hr hp
    exact ⟨b1, he, h1, h2, h3⟩
  | EnsureWriteable len =>
    obtain ⟨b1, he, h1, h2, h3, -, -⟩ :=
      Buffer.EnsureWriteable_ok hi hr (Buffer.Accepted.noWrap hp)
    exact ⟨b1, he, h1, h2, h3⟩
  | RetrieveAll =>
    obtain ⟨h1, h2⟩ := Buffer.RetrieveAll_valid hr
    exact ⟨b.RetrieveAll, rfl, h1, h2, (Buffer.RetrieveAll_readable b).2⟩

/-- A sequence of operations of the FIFO view, each used under its condition, runs to
the end, and the readable region then is the abstract queue after the same sequence. -/
theorem runOps_refines (ops : List QueueOp) (b : Buffer) (hi : b.Inv) (hr : b.Representable)
    (ha : Admissible ops b) :
    ∃ b1, runOps ops b = some b1 ∧ b1.Inv ∧ b1.Representable ∧
      b1.readable = runAbstract ops b.readable := by
  induction ops generalizing b with
  | nil => exact ⟨b, rfl, hi, hr, rfl⟩
  | cons op ops ih =>
    obtain ⟨hp, hrest⟩ := ha
    obtain ⟨b1, he, h1, h2, h3⟩ := QueueOp.step_refines hi hr hp
    rw [he] at hrest
    obtain ⟨b2, he2, g1, g2, g3⟩ := ih b1 h1 h2 hrest
    refine ⟨b2, ?_, g1, g2, ?_⟩
    · show (op.run b).bind (runOps ops) = some b2
      rw [he]
      exact he2
    · rw [g3, h3]
      rfl

/-- `ReadFd` used within the contract of `readv` returns, and the store is not shorter
afterwards. -/
theorem Buffer.ReadFd_length {b : Buffer} (len : Int) (data : List Byte)
    (errno saveErrno : Int) (hi : b.Inv) (hr : b.Representable)
    (hlen : len ≤ (b.WritableBytes : Int) + (SCRATCH_SIZE : Int))
    (hdata : 0 ≤ len → (data.length : Int) = len)
    (hfit : b.buffer_.length + SCRATCH_SIZE + 1 < SIZE_MOD) :
    ∃ r, b.ReadFd len data errno saveErrno = some r ∧ r.ret = len ∧
      b.buffer_.length ≤ r.buf.buffer_.length := by
  by_cases c : len < 0
  · refine ⟨{ buf := b, ret := len, saveErrno := errno }, ?_, rfl, Nat.le_refl _⟩
    unfold Buffer.ReadFd
    simp only
    rw [if_pos c]
  · by_cases c2 : len ≤ (b.WritableBytes : Int)
    · refine ⟨_, Buffer.ReadFd_inplace len data errno saveErrno hi hr (by omega) c2, rfl, ?_⟩
      show b.buffer_.length ≤ (copyIn _ _ _).length
      rw [copyIn_length]
    · obtain ⟨b2, he, -, -, -, hl1, hl2⟩ :=
        Buffer.ReadFd_overflow len data errno saveErrno hi hr hfit (by omega) hlen
          (hdata (by omega))
      refine ⟨_, he, rfl, ?_⟩
      show b.buffer_.length ≤ b2.buffer_.length
      by_cases c3 : data.length - b.WritableBytes ≤ b.PrependableBytes
      · rw [hl1 c3]
      · rw [hl2 (by omega)]
        omega

/-- `ReadFd` on a descriptor holding more bytes than the two spans of `readv` can take:
the call receives `writable + sizeof(buff)` bytes, no more. -/
theorem Buffer.ReadFdPending_full {b : Buffer} (pending : List Byte) (saveErrno : Int)
    (hi : b.Inv) (hr : b.Representable)
    (hfit : b.buffer_.length + SCRATCH_SIZE + 1 < SIZE_MOD)
    (hp : b.WritableBytes + SCRATCH_SIZE ≤ pending.length) :
    ∃ r, b.ReadFdPending pending saveErrno = some r ∧
      r.ret = ((b.WritableBytes + SCRATCH_SIZE : Nat) : Int) ∧
      r.buf.readable = b.readable ++ pending.take (b.WritableBytes + SCRATCH_SIZE) ∧
      r.buf.ReadableBytes = b.ReadableBytes + (b.WritableBytes + SCRATCH_SIZE) ∧
      (SCRATCH_SIZE ≤ b.PrependableBytes → r.buf.buffer_.length = b.buffer_.length) ∧
      (b.PrependableBytes < SCRATCH_SIZE →
        r.buf.buffer_.length = b.buffer_.length + SCRATCH_SIZE + 1) := by
  have hl : (readvMax pending b.WritableBytes SCRATCH_SIZE).length =
      b.WritableBytes + SCRATCH_SIZE := by
    unfold readvMax
    rw [List.length_take]
    omega
  have hS : SCRATCH_SIZE = 65535 := rfl
  obtain ⟨b2, he, hi2, hr2, hrd, hl1, hl2⟩ :=
    Buffer.ReadFd_overflow ((readvMax pending b.WritableBytes SCRATCH_SIZE).length : Int)
      (readvMax pending b.WritableBytes SCRATCH_SIZE) 0 saveErrno hi hr hfit
      (by rw [hl]; omega) (by rw [hl]; omega) rfl
  rw [hl] at hl1 hl2
  refine ⟨_, he, by rw [hl], hrd, ?_, ?_, ?_⟩
  · show b2.ReadableBytes = _
    have h2 := Buffer.readable_length hi2 hr2
    have h0 := Buffer.readable_length hi hr
    rw [Buffer.ReadableBytes_eq hi2 hr2, Buffer.ReadableBytes_eq hi hr, ← h2, ← h0, hrd,
      List.length_append]
    show _ + (readvMax pending b.WritableBytes SCRATCH_SIZE).length = _
    rw [hl]
  · intro h
    exact hl1 (by omega)
  · intro h
    show b2.buffer_.length = _
    rw [hl2 (by omega)]
    omega

/-! ## The claims on draining, on the descriptor operations and on sequences -/

/-- C11. On a state satisfying the cursor invariant, `RetrieveAllToStr()` returns the
readable region `[readPos, writePos)` as it was before the call, a string of
`ReadableBytes()` bytes, and `ReadableBytes()` is 0 afterwards. -/
theorem C11_retrieve_all_to_str (b : Buffer) (hi : b.Inv) (hr : b.Representable) :
    b.RetrieveAllToStr.1 = b.readable ∧
    b.RetrieveAllToStr.1 = (b.buffer_.drop b.readPos_).take (b.writePos_ - b.readPos_) ∧
    b.RetrieveAllToStr.1.length = b.ReadableBytes ∧
    b.RetrieveAllToStr.2.ReadableBytes = 0 := by
  have e : b.RetrieveAllToStr.1 = b.readable := rfl
  refine ⟨e, ?_, ?_, (Buffer.RetrieveAll_readable b).1⟩
  · rw [e, Buffer.readable_eq hi hr]
  · rw [e, Buffer.readable_length hi hr, Buffer.ReadableBytes_eq hi hr]

/-- C11, witness: `RetrieveAllToStr()` on the buffer whose readable region is "FGH". -/
theorem C11_retrieve_all_to_str_witness :
    bufFGH.Inv ∧ bufFGH.Representable ∧
    (bufFGH.RetrieveAllToStr.1 = bufFGH.readable ∧
      bufFGH.RetrieveAllToStr.1 =
        (bufFGH.buffer_.drop bufFGH.readPos_).take (bufFGH.writePos_ - bufFGH.readPos_) ∧
      bufFGH.RetrieveAllToStr.1.length = bufFGH.ReadableBytes ∧
      bufFGH.RetrieveAllToStr.2.ReadableBytes = 0) :=
  ⟨by decide, by decide, C11_retrieve_all_to_str bufFGH (by decide) (by decide)⟩

/-- C13. For both descriptor operations, when the result of the system call is
negative the buffer is left exactly as it was, the negative result is returned and
the error code is stored in `*saveErrno`; in particular `WriteFd` with the would-block
error leaves the buffer unchanged and reports that error code. -/
theorem C13_negative_result (b : Buffer) :
    (∀ (len : Int) (data : List Byte) (errno saveErrno : Int), len < 0 →
      b.ReadFd len data errno saveErrno =
        some { buf := b, ret := len, saveErrno := errno }) ∧
    (∀ (write : List Byte → Int × Int) (saveErrno : Int), (write b.readable).1 < 0 →
      b.WriteFd write saveErrno =
        { buf := b, ret := (write b.readable).1, saveErrno := (write b.readable).2 }) ∧
    (∀ saveErrno : Int,
      b.WriteFd (fun _ => (-1, EAGAIN)) saveErrno =
        { buf := b, ret := -1, saveErrno := EAGAIN }) := by
  refine ⟨?_, ?_, ?_⟩
  · intro len data errno saveErrno h
    unfold Buffer.ReadFd
    simp only
    rw [if_pos h]
  · intro write saveErrno h
    have e : b.peekN b.ReadableBytes = b.readable := rfl
    unfold Buffer.WriteFd
    simp only [e]
    rw [if_pos h]
  · intro saveErrno
    rfl

/-- C13, witness: on the buffer holding "ABCDEFGH", `ReadFd` with the result -1 and
the error code 4, and `WriteFd` with the result -1 and the would-block error code. -/
theorem C13_negative_result_witness :
    bufABCDEFGH.ReadFd (-1) [] 4 0 = some { buf := bufABCDEFGH, ret := -1, saveErrno := 4 } ∧
    bufABCDEFGH.WriteFd (fun _ => (-1, EAGAIN)) 0 =
      { buf := bufABCDEFGH, ret := -1, saveErrno := EAGAIN } :=
  ⟨(C13_negative_result bufABCDEFGH).1 (-1) [] 4 0 (by decide),
    (C13_negative_result bufABCDEFGH).2.1 (fun _ => (-1, EAGAIN)) 0 (by decide)⟩

/-- C14. `ReadFd`, in-place case: on a state satisfying the cursor invariant, for every
result `n` of the system call with `0 <= n <= WritableBytes()`, `ReadFd` returns `n`,
advances `writePos` by exactly `n` and leaves `readPos`, the store length and
`*saveErrno` unchanged; for `n == WritableBytes()` the new `writePos` is the store
length; and the readable region is the old one followed by the `n` bytes received. -/
theorem C14_read_fd_in_place (b : Buffer) (n : Int) (data : List Byte)
    (errno saveErrno : Int) (hi : b.Inv) (hr : b.Representable) (h0 : 0 ≤ n)
    (hn : n ≤ (b.WritableBytes : Int)) :
    ∃ r, b.ReadFd n data errno saveErrno = some r ∧ r.ret = n ∧
      r.saveErrno = saveErrno ∧
      (r.buf.writePos_ : Int) = b.writePos_ + n ∧
      r.buf.readPos_ = b.readPos_ ∧
      r.buf.buffer_.length = b.buffer_.length ∧
      (n = (b.WritableBytes : Int) → r.buf.writePos_ = b.buffer_.length) ∧
      ((data.length : Int) = n → r.buf.readable = b.readable ++ data) := by
  have hW := Buffer.WritableBytes_eq hi hr
  refine ⟨_, Buffer.ReadFd_inplace n data errno saveErrno hi hr h0 hn, rfl, rfl, ?_, rfl, ?_,
    ?_, ?_⟩
  · show ((b.writePos_ + n.toNat : Nat) : Int) = _
    omega
  · show (copyIn _ _ _).length = _
    rw [copyIn_length]
  · intro h
    show b.writePos_ + n.toNat = _
    have := hi.2
    omega
  · intro hd
    have hroom : b.writePos_ + data.length ≤ b.buffer_.length := by
      have := hi.2
      omega
    have e : ({ buffer_ := copyIn b.buffer_ b.writePos_ (data.take b.WritableBytes),
                readPos_ := b.readPos_,
                writePos_ := b.writePos_ + n.toNat } : Buffer) = b.written data := by
      unfold Buffer.written
      rw [List.take_of_length_le (by omega), copyIn_eq _ _ _ hroom]
      congr 1
      omega
    show Buffer.readable _ = _
    rw [e]
    exact (Buffer.written_props hi hr hroom).2.2.2

/-- C14, witness: `ReadFd` receiving the two bytes 1, 2 into the two writable bytes of
the buffer holding "ABCDEFGH" (the boundary `n == WritableBytes()`). -/
theorem C14_read_fd_in_place_witness :
    bufABCDEFGH.Inv ∧ bufABCDEFGH.Representable ∧ (0 : Int) ≤ 2 ∧
    (2 : Int) ≤ (bufABCDEFGH.WritableBytes : Int) ∧
    ∃ r, bufABCDEFGH.ReadFd 2 [1, 2] 0 0 = some r ∧ r.ret = 2 ∧
      r.saveErrno = 0 ∧
      (r.buf.writePos_ : Int) = bufABCDEFGH.writePos_ + 2 ∧
      r.buf.readPos_ = bufABCDEFGH.readPos_ ∧
      r.buf.buffer_.length = bufABCDEFGH.buffer_.length ∧
      ((2 : Int) = (bufABCDEFGH.WritableBytes : Int) →
        r.buf.writePos_ = bufABCDEFGH.buffer_.length) ∧
      ((([1, 2] : List Byte).length : Int) = 2 →
        r.buf.readable = bufABCDEFGH.readable ++ [1, 2]) :=
  ⟨by decide, by decide, by decide, by decide,
    C14_read_fd_in_place bufABCDEFGH 2 [1, 2] 0 0 (by decide) (by decide) (by decide)
      (by decide)⟩

/-- C15. `ReadFd`, overflow case: on a state satisfying the cursor invariant with `w`
writable bytes, for every result `n` of the system call with `w < n <= w + 65535`
whose first `w` bytes landed in the buffer tail and whose other `n - w` bytes in the
scratch array, `ReadFd` returns `n`, `ReadableBytes()` has grown by `n`, and the
readable region is the old one followed by the `n` bytes received in arrival order:
the readable region that `Append` of the `n` bytes produces. `Representable` and
the bound on the store length say that the store is an object of a 64-bit address
space. -/
theorem C15_read_fd_overflow (b : Buffer) (n : Int) (data : List Byte)
    (errno saveErrno : Int) (hi : b.Inv) (hr : b.Representable)
    (hfit : b.buffer_.length + SCRATCH_SIZE + 1 < SIZE_MOD)
    (hw : (b.WritableBytes : Int) < n)
    (hn : n ≤ (b.WritableBytes : Int) + (SCRATCH_SIZE : Int))
    (hd : (data.length : Int) = n) :
    ∃ r, b.ReadFd n data errno saveErrno = some r ∧ r.ret = n ∧
      (r.buf.ReadableBytes : Int) = b.ReadableBytes + n ∧
      r.buf.readable = b.readable ++ data ∧
      ∃ b2, b.Append data data.length = some b2 ∧ b2.readable = r.buf.readable := by
  have hW := Buffer.WritableBytes_eq hi hr
  obtain ⟨b1, he, hi1, hr1, hrd1, -, -⟩ :=
    Buffer.ReadFd_overflow n data errno saveErrno hi hr hfit hw hn hd
  have hnw : b.NoWrap data.length := by
    intro _
    show b.writePos_ + data.length + 1 < SIZE_MOD
    have := hi.2
    unfold SCRATCH_SIZE at hn hfit
    omega
  obtain ⟨b2, he2, -, -, hrd2, -⟩ := Buffer.Append_ok hi hr hnw
  refine ⟨_, he, rfl, ?_, hrd1, b2, he2, by rw [hrd2]; exact hrd1.symm⟩
  show (b1.ReadableBytes : Int) = _
  have h1 := Buffer.readable_length hi1 hr1
  have h0 := Buffer.readable_length hi hr
  rw [Buffer.ReadableBytes_eq hi1 hr1, Buffer.ReadableBytes_eq hi hr, ← h1, ← h0, hrd1,
    List.length_append]
  omega

/-- C15, witness: `ReadFd` receiving the three bytes 1, 2, 3 into the buffer holding
"XY", which has one writable byte. -/
theorem C15_read_fd_overflow_witness :
    bufXY.Inv ∧ bufXY.Representable ∧ bufXY.buffer_.length + SCRATCH_SIZE + 1 < SIZE_MOD ∧
    (bufXY.WritableBytes : Int) < 3 ∧
    (3 : Int) ≤ (bufXY.WritableBytes : Int) + (SCRATCH_SIZE : Int) ∧
    (bytes123.length : Int) = 3 ∧
    ∃ r, bufXY.ReadFd 3 bytes123 0 0 = some r ∧ r.ret = 3 ∧
      (r.buf.ReadableBytes : Int) = bufXY.ReadableBytes + 3 ∧
      r.buf.readable = bufXY.readable ++ bytes123 ∧
      ∃ b2, bufXY.Append bytes123 bytes123.length = some b2 ∧
        b2.readable = r.buf.readable :=
  ⟨by decide, by decide, by decide, by decide, by decide, by decide,
    C15_read_fd_overflow bufXY 3 bytes123 0 0 (by decide) (by decide) (by decide)
      (by decide) (by decide) (by decide)⟩

/-- C16 (as amended). One `ReadFd` call on a descriptor holding 70000 bytes, into a
buffer satisfying the cursor invariant whose writable capacity is 100, receives what
the two spans of `readv` can take, `100 + 65535 = 65635` bytes: 100 in the buffer
tail and 65535 through the scratch array. It returns 65635, `ReadableBytes()` has
grown by 65635, the readable region is the old one followed by the first 65635 bytes
of the descriptor, and the store has grown (by 65536 bytes) when fewer than 65535
bytes were prependable and keeps its length otherwise. -/
theorem C16_read_fd_scenario (b : Buffer) (pending : List Byte) (saveErrno : Int)
    (hi : b.Inv) (hr : b.Representable)
    (hfit : b.buffer_.length + SCRATCH_SIZE + 1 < SIZE_MOD)
    (hw : b.WritableBytes = 100) (hp : pending.length = 70000) :
    ((readvMax pending b.WritableBytes SCRATCH_SIZE).take b.WritableBytes).length = 100 ∧
    ((readvMax pending b.WritableBytes SCRATCH_SIZE).drop b.WritableBytes).length = 65535 ∧
    ∃ r, b.ReadFdPending pending saveErrno = some r ∧ r.ret = 65635 ∧
      r.buf.ReadableBytes = b.ReadableBytes + 65635 ∧
      r.buf.readable = b.readable ++ pending.take 65635 ∧
      (b.PrependableBytes < 65535 → r.buf.buffer_.length = b.buffer_.length + 65536) ∧
      (65535 ≤ b.PrependableBytes → r.buf.buffer_.length = b.buffer_.length) := by
  have hS : SCRATCH_SIZE = 65535 := rfl
  obtain ⟨r, he, h1, h2, h3, h4, h5⟩ :=
    Buffer.ReadFdPending_full pending saveErrno hi hr hfit (by rw [hw, hp, hS]; omega)
  rw [hw, hS] at h1 h2 h3
  rw [hS] at h4 h5
  refine ⟨?_, ?_, r, he, h1, h3, h2, h5, h4⟩
  · unfold readvMax
    rw [hw, hS, List.length_take, List.length_take, hp]
    rfl
  · unfold readvMax
    rw [hw, hS, List.length_drop, List.length_take, hp]
    rfl

/-- C16, witness: the scenario on a new buffer of 100 bytes and a descriptor holding
70000 bytes of value 7. -/
theorem C16_read_fd_scenario_witness :
    bufW100.Inv ∧ bufW100.Representable ∧
    bufW100.buffer_.length + SCRATCH_SIZE + 1 < SIZE_MOD ∧
    bufW100.WritableBytes = 100 ∧ (List.replicate 70000 (7 : Byte)).length = 70000 ∧
    (((readvMax (List.replicate 70000 (7 : Byte)) bufW100.WritableBytes
        SCRATCH_SIZE).take bufW100.WritableBytes).length = 100 ∧
      ((readvMax (List.replicate 70000 (7 : Byte)) bufW100.WritableBytes
        SCRATCH_SIZE).drop bufW100.WritableBytes).length = 65535 ∧
      ∃ r, bufW100.ReadFdPending (List.replicate 70000 (7 : Byte)) 0 = some r ∧
        r.ret = 65635 ∧
        r.buf.ReadableBytes = bufW100.ReadableBytes + 65635 ∧
        r.buf.readable = bufW100.readable ++ (List.replicate 70000 (7 : Byte)).take 65635 ∧
        (bufW100.PrependableBytes < 65535 →
          r.buf.buffer_.length = bufW100.buffer_.length + 65536) ∧
        (65535 ≤ bufW100.PrependableBytes →
          r.buf.buffer_.length = bufW100.buffer_.length)) :=
  ⟨by decide, by decide, by decide, by decide, List.length_replicate _ _,
    C16_read_fd_scenario bufW100 (List.replicate 70000 (7 : Byte)) 0 (by decide) (by decide)
      (by decide) (by decide) (List.length_replicate _ _)⟩

/-- C16, counterexample to the claim as stated: a new buffer of 100 bytes has 100
writable bytes, and one `ReadFd` call on a descriptor holding 70000 bytes returns
65635 and leaves `ReadableBytes()` grown by 65635, not by 70000. -/
theorem C16_counterexample :
    bufW100.WritableBytes = 100 ∧ (List.replicate 70000 (7 : Byte)).length = 70000 ∧
    ∃ r, bufW100.ReadFdPending (List.replicate 70000 (7 : Byte)) 0 = some r ∧
      r.ret = 65635 ∧ r.buf.ReadableBytes = bufW100.ReadableBytes + 65635 ∧
      r.buf.ReadableBytes ≠ bufW100.ReadableBytes + 70000 := by
  have hw : bufW100.WritableBytes = 100 := by decide
  have hS : SCRATCH_SIZE = 65535 := rfl
  have hl : (List.replicate 70000 (7 : Byte)).length = 70000 := List.length_replicate _ _
  obtain ⟨r, he, h1, -, h3, -, -⟩ :=
    Buffer.ReadFdPending_full (List.replicate 70000 (7 : Byte)) 0
      (show bufW100.Inv by decide) (show bufW100.Representable by decide)
      (show bufW100.buffer_.length + SCRATCH_SIZE + 1 < SIZE_MOD by decide)
      (by rw [hw, hl, hS]; omega)
  rw [hw, hS] at h1 h3
  exact ⟨hw, hl, r, he, h1, h3, by rw [h3]; omega⟩

/-- C17. `WriteFd`, success case: on a state satisfying the cursor invariant, the span
offered to `write` is the readable region `[readPos, writePos)`; for every result `n`
of the system call with `0 <= n <= ReadableBytes()`, `WriteFd` returns `n`, advances
`readPos` by exactly `n` and leaves `writePos`, the store and `*saveErrno` unchanged,
so that the readable region is the old one without its first `n` bytes. -/
theorem C17_write_fd (b : Buffer) (write : List Byte → Int × Int) (saveErrno : Int)
    (hi : b.Inv) (hr : b.Representable) (h0 : 0 ≤ (write b.readable).1)
    (hn : (write b.readable).1 ≤ (b.ReadableBytes : Int)) :
    (∀ write2 : List Byte → Int × Int, write2 b.readable = write b.readable →
      b.WriteFd write2 saveErrno = b.WriteFd write saveErrno) ∧
    (b.WriteFd write saveErrno).ret = (write b.readable).1 ∧
    (b.WriteFd write saveErrno).saveErrno = saveErrno ∧
    ((b.WriteFd write saveErrno).buf.readPos_ : Int) = b.readPos_ + (write b.readable).1 ∧
    (b.WriteFd write saveErrno).buf.writePos_ = b.writePos_ ∧
    (b.WriteFd write saveErrno).buf.buffer_ = b.buffer_ ∧
    (b.WriteFd write saveErrno).buf.readable = b.readable.drop (write b.readable).1.toNat := by
  have hR := Buffer.ReadableBytes_eq hi hr
  have hok := Buffer.WriteFd_ok write saveErrno hi hr h0 hn
  have e : b.peekN b.ReadableBytes = b.readable := rfl
  refine ⟨?_, ?_, ?_, ?_, ?_, ?_, ?_⟩
  · intro write2 h
    unfold Buffer.WriteFd
    simp only [e, h]
  · rw [hok]
  · rw [hok]
  · rw [hok]
    show ((b.readPos_ + (write b.readable).1.toNat : Nat) : Int) = _
    omega
  · rw [hok]
  · rw [hok]
  · rw [hok]
    obtain ⟨b1, he, hb1, -, -, hrd⟩ :=
      @Buffer.Retrieve_ok b (write b.readable).1.toNat hi hr (by omega)
    rw [hb1] at hrd
    exact hrd

/-- C17, witness: a partial write of 3 of the 8 readable bytes "ABCDEFGH". -/
theorem C17_write_fd_witness :
    bufABCDEFGH.Inv ∧ bufABCDEFGH.Representable ∧
    0 ≤ ((fun _ => (3, 0) : List Byte → Int × Int) bufABCDEFGH.readable).1 ∧
    ((fun _ => (3, 0) : List Byte → Int × Int) bufABCDEFGH.readable).1 ≤
      (bufABCDEFGH.ReadableBytes : Int) ∧
    (bufABCDEFGH.WriteFd (fun _ => (3, 0)) 0).ret = 3 ∧
    (bufABCDEFGH.WriteFd (fun _ => (3, 0)) 0).buf.readable = [68, 69, 70, 71, 72] :=
  have h := C17_write_fd bufABCDEFGH (fun _ => (3, 0)) 0 (by decide) (by decide) (by decide)
    (by decide)
  ⟨by decide, by decide, by decide, by decide, h.2.1, h.2.2.2.2.2.2⟩

/-- C18 (as amended). On a state satisfying the cursor invariant: the store length
after `Retrieve`, `RetrieveAll`, `RetrieveAllToStr`, `HasWritten` and `WriteFd` is the
store length before; `Append`, `EnsureWriteable` and `ReadFd`, used with a length for
which the growth branch, if taken, asks for a store length of at most
`max_size() = 2^63 - 1`, return with a store that is not shorter; and the growth
branch, under the same bound, makes the store length `writePos + len + 1`, strictly
more than before. -/
theorem C18_never_shrinks (b : Buffer) (hi : b.Inv) (hr : b.Representable) :
    (∀ (len : Nat) (b1 : Buffer), b.Retrieve len = some b1 →
      b1.buffer_.length = b.buffer_.length) ∧
    (∀ len : Nat, len ≤ b.ReadableBytes →
      ∃ b1, b.Retrieve len = some b1 ∧ b1.buffer_.length = b.buffer_.length) ∧
    b.RetrieveAll.buffer_.length = b.buffer_.length ∧
    b.RetrieveAllToStr.2.buffer_.length = b.buffer_.length ∧
    (∀ len : Nat, (b.HasWritten len).buffer_.length = b.buffer_.length) ∧
    (∀ (write : List Byte → Int × Int) (saveErrno : Int),
      (b.WriteFd write saveErrno).buf.buffer_.length = b.buffer_.length) ∧
    (∀ B : List Byte, b.Accepted B.length →
      ∃ b1, b.Append B B.length = some b1 ∧ b.buffer_.length ≤ b1.buffer_.length) ∧
    (∀ len : Nat, b.Accepted len →
      ∃ b1, b.EnsureWriteable len = some b1 ∧ b.buffer_.length ≤ b1.buffer_.length) ∧
    (∀ (len : Int) (data : List Byte) (errno saveErrno : Int),
      len ≤ (b.WritableBytes : Int) + (SCRATCH_SIZE : Int) →
      (0 ≤ len → (data.length : Int) = len) →
      b.buffer_.length + SCRATCH_SIZE + 1 ≤ MAX_SIZE →
      ∃ r, b.ReadFd len data errno saveErrno = some r ∧
        b.buffer_.length ≤ r.buf.buffer_.length) ∧
    (∀ len : Nat, b.WritableBytes + b.PrependableBytes < len →
      b.writePos_ + len + 1 ≤ MAX_SIZE →
      ∃ b1, b.MakeSpace_ len = some b1 ∧ b1.buffer_.length = b.writePos_ + len + 1 ∧
        b.buffer_.length < b1.buffer_.length) := by
  have hM : MAX_SIZE < SIZE_MOD := by decide
  refine ⟨?_, ?_, ?_, ?_, ?_, ?_, ?_, ?_, ?_, ?_⟩
  · intro len b1 h
    unfold Buffer.Retrieve at h
    by_cases c : len ≤ b.ReadableBytes
    · rw [if_pos c] at h
      cases h
      rfl
    · rw [if_neg c] at h
      cases h
  · intro len hlen
    obtain ⟨b1, he, hb1, -, -, -⟩ := Buffer.Retrieve_ok hi hr hlen
    refine ⟨b1, he, ?_⟩
    rw [hb1]
  · show (List.replicate b.buffer_.length (0 : Byte)).length = _
    rw [List.length_replicate]
  · show (List.replicate b.buffer_.length (0 : Byte)).length = _
    rw [List.length_replicate]
  · intro len
    rfl
  · intro write saveErrno
    unfold Buffer.WriteFd
    simp only
    split
    · rfl
    · rfl
  · intro B hacc
    obtain ⟨b1, he, -, -, -, hle⟩ := Buffer.Append_ok hi hr (Buffer.Accepted.noWrap hacc)
    exact ⟨b1, he, hle⟩
  · intro len hacc
    obtain ⟨b1, he, -, -, -, -, hle⟩ :=
      Buffer.EnsureWriteable_ok hi hr (Buffer.Accepted.noWrap hacc)
    exact ⟨b1, he, hle⟩
  · intro len data errno saveErrno hlen hdata hfit
    obtain ⟨r, he, -, hle⟩ :=
      Buffer.ReadFd_length len data errno saveErrno hi hr hlen hdata (by omega)
    exact ⟨r, he, hle⟩
  · intro len hlt hacc
    have hfit : b.GrowFits len := by
      unfold Buffer.GrowFits
      omega
    obtain ⟨-, -, hlen, -⟩ := Buffer.grown_props hi hr hlt hfit
    refine ⟨b.grown len, Buffer.MakeSpace__grow hi hr hlt hfit, hlen, ?_⟩
    have hW := Buffer.WritableBytes_eq hi hr
    have := hi.2
    rw [hlen]
    omega

/-- C18, witness: the theorem on the buffer holding "ABCDEFGH", with its growth branch
taken for `len = 3`. -/
theorem C18_never_shrinks_witness :
    bufABCDEFGH.Inv ∧ bufABCDEFGH.Representable ∧
    bufABCDEFGH.WritableBytes + bufABCDEFGH.PrependableBytes < 3 ∧
    bufABCDEFGH.writePos_ + 3 + 1 ≤ MAX_SIZE ∧
    ∃ b1, bufABCDEFGH.MakeSpace_ 3 = some b1 ∧
      b1.buffer_.length = bufABCDEFGH.writePos_ + 3 + 1 ∧
      bufABCDEFGH.buffer_.length < b1.buffer_.length :=
  ⟨by decide, by decide, by decide, by decide,
    (C18_never_shrinks bufABCDEFGH (by decide) (by decide)).2.2.2.2.2.2.2.2.2 3 (by decide)
      (by decide)⟩

/-- C18, counterexample to the claim as stated: the buffer holding "ABCDEFGH" satisfies
the cursor invariant and has a store of 10 bytes; `EnsureWriteable(2^64 - 5)` takes the
growth branch, returns, and leaves a store of 4 bytes. -/
theorem C18_counterexample :
    bufABCDEFGH.Inv ∧ bufABCDEFGH.buffer_.length = 10 ∧
    bufABCDEFGH.WritableBytes + bufABCDEFGH.PrependableBytes < 18446744073709551611 ∧
    ∃ b1, bufABCDEFGH.EnsureWriteable 18446744073709551611 = some b1 ∧
      b1.buffer_.length = 4 ∧ b1.buffer_.length < bufABCDEFGH.buffer_.length :=
  ⟨by decide, by decide, by decide,
    { buffer_ := [65, 66, 67, 68], readPos_ := 0, writePos_ := 8 },
    by decide, by decide, by decide⟩

/-- C19. For every state and every `len <= WritableBytes()`, `EnsureWriteable(len)`
returns the state unchanged (cursors, store length and contents), and `Append` of `len`
bytes returns with `readPos` and the store length unchanged, `writePos` advanced by
`len`, and every byte at an offset outside `[writePos, writePos + len)` unchanged; on a
state satisfying the cursor invariant the bytes at these offsets are the payload. -/
theorem C19_fits_unchanged (b : Buffer) (len : Nat) (h : len ≤ b.WritableBytes) :
    b.EnsureWriteable len = some b ∧
    ∀ B : List Byte, B.length = len →
      ∃ b1, b.Append B len = some b1 ∧ b1.readPos_ = b.readPos_ ∧
        b1.writePos_ = szAdd b.writePos_ len ∧
        b1.buffer_.length = b.buffer_.length ∧
        (∀ i : Nat, i < b.writePos_ ∨ b.writePos_ + len ≤ i →
          b1.buffer_[i]? = b.buffer_[i]?) ∧
        (b.Inv → b.Representable →
          b1.writePos_ = b.writePos_ + len ∧
          (b1.buffer_.drop b.writePos_).take len = B) := by
  have he := Buffer.EnsureWriteable_fits h
  refine ⟨he, ?_⟩
  intro B hB
  subst hB
  refine ⟨Buffer.HasWritten { b with buffer_ := copyIn b.buffer_ b.writePos_ B } B.length,
    ?_, rfl, rfl, ?_, ?_, ?_⟩
  · unfold Buffer.Append
    rw [he, Option.map_some', List.take_length]
  · show (copyIn _ _ _).length = _
    rw [copyIn_length]
  · intro i hi
    show (copyIn b.buffer_ b.writePos_ B)[i]? = _
    exact copyIn_getElem?_outside _ _ _ _ hi
  · intro hi hr
    have hW := Buffer.WritableBytes_eq hi hr
    have hr' : b.buffer_.length < SIZE_MOD := hr
    have hroom : b.writePos_ + B.length ≤ b.buffer_.length := by
      have := hi.2
      omega
    refine ⟨?_, ?_⟩
    · show szAdd b.writePos_ B.length = _
      exact szAdd_eq (by omega)
    · show ((copyIn b.buffer_ b.writePos_ B).drop b.writePos_).take B.length = B
      have hl : (b.buffer_.take b.writePos_).length = b.writePos_ := by
        rw [List.length_take]; omega
      rw [copyIn_eq _ _ _ hroom, List.append_assoc, List.drop_left' hl, List.take_left]

/-- C19, witness: `EnsureWriteable(2)` and `Append` of two bytes on the buffer holding
"ABCDEFGH", which has two writable bytes. -/
theorem C19_fits_unchanged_witness :
    2 ≤ bufABCDEFGH.WritableBytes ∧
    bufABCDEFGH.EnsureWriteable 2 = some bufABCDEFGH ∧
    ∃ b1, bufABCDEFGH.Append [88, 89] 2 = some b1 ∧ b1.readPos_ = bufABCDEFGH.readPos_ ∧
      b1.writePos_ = szAdd bufABCDEFGH.writePos_ 2 ∧
      b1.buffer_.length = bufABCDEFGH.buffer_.length ∧
      (∀ i : Nat, i < bufABCDEFGH.writePos_ ∨ bufABCDEFGH.writePos_ + 2 ≤ i →
        b1.buffer_[i]? = bufABCDEFGH.buffer_[i]?) ∧
      (bufABCDEFGH.Inv → bufABCDEFGH.Representable →
        b1.writePos_ = bufABCDEFGH.writePos_ + 2 ∧
        (b1.buffer_.drop bufABCDEFGH.writePos_).take 2 = [88, 89]) :=
  have h := C19_fits_unchanged bufABCDEFGH 2 (by decide)
  ⟨by decide, h.1, h.2 [88, 89] rfl⟩

/-- C20 (as amended). The buffer refines a FIFO byte queue: every finite sequence of
the operations `Append(B)`, `Retrieve(len)` with `len <= ReadableBytes()`,
`EnsureWriteable(len)` and `RetrieveAll()`, where `Append` and `EnsureWriteable` are
used with a length for which the growth branch, if taken, asks for a store length of
at most `max_size() = 2^63 - 1`, runs to the end on a newly constructed buffer, and
the readable region then is the abstract byte list under enqueue at the back, drop of
the first `len` bytes, no-op and clear, whichever growth or compaction steps were
taken. -/
theorem C20_fifo_refinement (initBuffSize : Nat) (ops : List QueueOp)
    (hinit : initBuffSize ≤ INT_MAX) (ha : Admissible ops (Buffer.new initBuffSize)) :
    ∃ b, runOps ops (Buffer.new initBuffSize) = some b ∧ b.readable = runAbstract ops [] := by
  obtain ⟨hi, hr⟩ := Buffer.new_valid hinit
  obtain ⟨b, he, -, -, hrd⟩ := runOps_refines ops (Buffer.new initBuffSize) hi hr ha
  rw [Buffer.new_readable] at hrd
  exact ⟨b, he, hrd⟩

/-- C20, witness: a sequence on `Buffer(10)` that takes the plain, the compaction and
the growth path. -/
theorem C20_fifo_refinement_witness :
    10 ≤ INT_MAX ∧
    Admissible [.Append ABCDEFGH, .Retrieve 5, .EnsureWriteable 6, .Append [1, 2, 3],
      .Append ABCDEFGH, .Retrieve 2, .RetrieveAll, .Append [4, 5]] (Buffer.new 10) ∧
    ∃ b, runOps [.Append ABCDEFGH, .Retrieve 5, .EnsureWriteable 6, .Append [1, 2, 3],
        .Append ABCDEFGH, .Retrieve 2, .RetrieveAll, .Append [4, 5]] (Buffer.new 10) = some b ∧
      b.readable = runAbstract [.Append ABCDEFGH, .Retrieve 5, .EnsureWriteable 6,
        .Append [1, 2, 3], .Append ABCDEFGH, .Retrieve 2, .RetrieveAll, .Append [4, 5]] [] :=
  ⟨by decide, by decide, C20_fifo_refinement 10 _ (by decide) (by decide)⟩

/-- C20, counterexample to the claim as stated: on `Buffer(10)` the sequence
`Append("ABCDEFGH")`, `EnsureWriteable(2^64 - 5)`, `EnsureWriteable(2^64 - 3)` runs to
the end. The two requested lengths wrap around to 4 and to 6: the second `resize`
lengthens the store from 4 to 6 elements and so puts zero bytes at the offsets 4 and
5. With `readPos = 0` and `writePos = 8` these offsets are in the readable region
`[readPos, writePos)`, whose byte 4 is therefore 0, while the abstract queue holds
"ABCDEFGH", whose byte 4 is "E" (69). -/
theorem C20_counterexample :
    ∃ b, runOps [.Append ABCDEFGH, .EnsureWriteable 18446744073709551611,
        .EnsureWriteable 18446744073709551613] (Buffer.new 10) = some b ∧
      b.buffer_ = [65, 66, 67, 68, 0, 0] ∧ b.readPos_ = 0 ∧ b.writePos_ = 8 ∧
      b.buffer_[b.readPos_ + 4]? = some 0 ∧
      runAbstract [.Append ABCDEFGH, .EnsureWriteable 18446744073709551611,
        .EnsureWriteable 18446744073709551613] [] = ABCDEFGH ∧
      (runAbstract [.Append ABCDEFGH, .EnsureWriteable 18446744073709551611,
        .EnsureWriteable 18446744073709551613] [])[4]? = some 69 :=
  ⟨{ buffer_ := [65, 66, 67, 68, 0, 0], readPos_ := 0, writePos_ := 8 },
    by decide, by decide, by decide, by decide, by decide, by decide, by decide⟩

end LinuxServer
